import Mathlib

/-!
# Recipe statistics: parser and aggregator

A shallow embedding of the Go packages `pkg/parser` and `pkg/stats`.

Modelling conventions.

* A Go `string` holding valid UTF-8 (every string produced by `encoding/json`) is the list of
  its runes, `Str := List Char`.  Its underlying bytes are `bytes s`; `len` counts those bytes
  and the comparison used by `slices.Sort` is lexicographic on those bytes.
* A Go `error` value is an `Err`; a Go function returning `(T, error)` returns `Except Err T`.
  Every error return of the sources carries the zero value of `T` (`0`, `false`,
  `ResponseData{}`), which is therefore not kept.
* A Go `map[string]V` is an association list with pairwise distinct keys, read with the zero
  value as default.
* The channel returned by `Stream()` is the finite list of the entries sent before it is
  closed.
* Go `int` counters are natural numbers: a counter is incremented at most once per stream
  entry, and no stream has `2^63` entries.
-/

/-- A Go string that is valid UTF-8, as the sequence of its runes. -/
abbrev Str := List Char

/-- A Go `error` value: a `*strconv.NumError`, an `errors.New` message, an
`errors.Wrap`/`errors.Wrapf` around another error, or an error of a library that is not
modelled (`os`, `encoding/json`), known by its message. -/
inductive Err where
  | numError : Err
  | new : String → Err
  | wrap : Err → String → Err
  | other : String → Err
  deriving DecidableEq, Repr

deriving instance DecidableEq for Except

set_option linter.dupNamespace false

namespace utf8

/-- The UTF-8 encoding of one rune (`utf8.EncodeRune`), as byte values. -/
def encodeRune (r : Nat) : List Nat :=
  if r < 128 then [r]
  else if r < 2048 then [192 + r / 64, 128 + r % 64]
  else if r < 65536 then [224 + r / 4096, 128 + r / 64 % 64, 128 + r % 64]
  else [240 + r / 262144, 128 + r / 4096 % 64, 128 + r / 64 % 64, 128 + r % 64]

end utf8

/-- The bytes of a Go string. -/
def bytes : Str → List Nat
  | [] => []
  | c :: cs => utf8.encodeRune c.toNat ++ bytes cs

/-- Go's builtin `len` on a string: the number of bytes. -/
def len (s : Str) : Nat := (bytes s).length

/-- Go's `<=` on strings: lexicographic comparison of the bytes. -/
def strLE (a b : Str) : Prop := bytes a ≤ bytes b

/-- Go's `<` on strings: lexicographic comparison of the bytes. -/
def strLT (a b : Str) : Prop := bytes a < bytes b

instance : DecidableRel strLE := fun a b => inferInstanceAs (Decidable (bytes a ≤ bytes b))

instance : DecidableRel strLT := fun a b => inferInstanceAs (Decidable (bytes a < bytes b))

namespace strings

/-- Go's `strings.HasSuffix`. -/
def HasSuffix (s suffix : Str) : Bool :=
  decide (suffix.length ≤ s.length) && (s.drop (s.length - suffix.length) == suffix)

/-- Go's `strings.TrimSuffix`. -/
def TrimSuffix (s suffix : Str) : Str :=
  if HasSuffix s suffix then s.take (s.length - suffix.length) else s

/-- Go's `strings.Index`: the position of the first occurrence of `substr` in `s`, `none`
standing for `-1`. -/
def Index : Str → Str → Option Nat
  | [], substr => if substr = [] then some 0 else none
  | c :: cs, substr =>
    if substr.isPrefixOf (c :: cs) then some 0
    else match Index cs substr with
      | some i => some (i + 1)
      | none => none

/-- Go's `strings.Contains`. -/
def Contains (s substr : Str) : Bool := (Index s substr).isSome

/-- Go's `strings.SplitN` for a non-empty separator and a count `n ≥ 0`: at most `n` pieces,
the last one being the unsplit remainder. -/
def SplitN (s sep : Str) : Nat → List Str
  | 0 => []
  | 1 => [s]
  | n + 2 =>
    match Index s sep with
    | none => [s]
    | some m => s.take m :: SplitN (s.drop (m + sep.length)) sep (n + 1)

end strings

namespace strconv

/-- The decimal digits loop of `strconv.Atoi`/`ParseUint`: `none` on a byte that is not a
digit. -/
def digitsValue : Str → Nat → Option Nat
  | [], n => some n
  | c :: cs, n =>
    if 48 ≤ c.toNat ∧ c.toNat ≤ 57 then digitsValue cs (n * 10 + (c.toNat - 48)) else none

/-- Go's `strconv.Atoi` on a 64-bit platform: an optional sign, then one or more decimal
digits, the value within the range of `int`. -/
def Atoi (s : Str) : Except Err Int :=
  let neg := s.head? = some '-'
  let digits := if s.head? = some '-' ∨ s.head? = some '+' then s.tail else s
  if digits = [] then .error Err.numError
  else match digitsValue digits 0 with
    | none => .error Err.numError
    | some n =>
      let v : Int := if neg then -(n : Int) else (n : Int)
      if v < -(2 : Int) ^ 63 ∨ (2 : Int) ^ 63 - 1 < v then .error Err.numError else .ok v

end strconv

namespace unicode

/-- Go's `unicode.IsSpace`: the Latin-1 spaces and the other runes with the Unicode property
`White_Space`. -/
def IsSpace (r : Char) : Bool :=
  let n := r.toNat
  if n ≤ 255 then
    n = 9 || n = 10 || n = 11 || n = 12 || n = 13 || n = 32 || n = 133 || n = 160
  else
    n = 5760 || (8192 ≤ n && n ≤ 8202) || n = 8232 || n = 8233 || n = 8239 || n = 8287 ||
      n = 12288

/-- Go's `unicode.ToLower`: explicit on ASCII; above ASCII the result is read from the case
tables of the Unicode standard, which are the parameter `caseTable`. -/
def ToLower (caseTable : Char → Char) (r : Char) : Char :=
  if r.toNat ≤ 127 then
    if 65 ≤ r.toNat ∧ r.toNat ≤ 90 then Char.ofNat (r.toNat + 32) else r
  else caseTable r

end unicode

namespace strings

/-- The loop of Go's `strings.FieldsFunc(s, unicode.IsSpace)`; `cur` is the field being read,
empty when the loop is between fields. -/
def fieldsLoop : Str → Str → List Str
  | [], cur => if cur = [] then [] else [cur]
  | c :: cs, cur =>
    if unicode.IsSpace c then
      if cur = [] then fieldsLoop cs [] else cur :: fieldsLoop cs []
    else fieldsLoop cs (cur ++ [c])

/-- Go's `strings.Fields`: the maximal runs of non-space runes. -/
def Fields (s : Str) : List Str := fieldsLoop s []

/-- Go's `strings.ToLower`: every rune mapped by `unicode.ToLower`. -/
def ToLower (caseTable : Char → Char) (s : Str) : Str := s.map (unicode.ToLower caseTable)

end strings

/-- A Go `map[string]V`: its entries, with pairwise distinct keys. -/
abbrev GoMap (V : Type) := List (Str × V)

namespace GoMap

/-- The map read `m[k]`, the zero value being returned for an absent key. -/
def get {V : Type} (zero : V) (m : GoMap V) (k : Str) : V :=
  match m.lookup k with
  | some v => v
  | none => zero

/-- The map write `m[k] = v`. -/
def set {V : Type} : GoMap V → Str → V → GoMap V
  | [], k, v => [(k, v)]
  | (k', v') :: m, k, v => if k' = k then (k, v) :: m else (k', v') :: set m k v

/-- The statement `m[k]++` on a `map[string]int`. -/
def incr (m : GoMap Nat) (k : Str) : GoMap Nat := set m k (get 0 m k + 1)

/-- The keys of the map, as `for k := range m` visits them (in an order that Go leaves
unspecified). -/
def keys {V : Type} (m : GoMap V) : List Str := m.map Prod.fst

end GoMap

namespace slices

/-- Go's `slices.Sort` on a `[]string` (`Sort` is reserved in Lean): the elements in ascending
order of `<` on strings. -/
def sort (keys : List Str) : List Str := keys.insertionSort strLE

end slices

namespace config

/-- The struct `Config` of `pkg/config/config.go`. -/
structure Config where
  File : Str
  Words : List Str
  Postcode : Str
  FromTime : Str
  ToTime : Str
  deriving DecidableEq, Repr

end config

namespace parser

/-- The struct `Recipe` of `pkg/parser/types.go`. -/
structure Recipe where
  Recipe : Str
  Postcode : Str
  Delivery : Str
  deriving DecidableEq, Repr

/-- The struct `Entry` of `pkg/parser/types.go`; `Error = none` is Go's `nil`. -/
structure Entry where
  Recipe : Recipe
  Error : Option Err
  deriving DecidableEq, Repr

end parser

namespace regexp

/-- The syntax tree of a Go regular expression (`regexp/syntax`), without capture groups,
which do not change whether a text matches. -/
inductive Regexp where
  | noMatch : Regexp
  | emptyMatch : Regexp
  | charClass : List (Char × Char) → Regexp
  | concat : Regexp → Regexp → Regexp
  | alternate : Regexp → Regexp → Regexp
  | star : Regexp → Regexp

namespace Regexp

/-- Membership of a rune in a character class given as a list of inclusive ranges. -/
def inClass (ranges : List (Char × Char)) (c : Char) : Bool :=
  ranges.any fun r => decide (r.1.toNat ≤ c.toNat) && decide (c.toNat ≤ r.2.toNat)

/-- A literal rune. -/
def literal (c : Char) : Regexp := charClass [(c, c)]

/-- A literal string. -/
def literals : Str → Regexp
  | [] => emptyMatch
  | c :: cs => concat (literal c) (literals cs)

/-- The repetition `x+`. -/
def plus (x : Regexp) : Regexp := concat x (star x)

/-- Whether the expression matches the empty text. -/
def nullable : Regexp → Bool
  | noMatch => false
  | emptyMatch => true
  | charClass _ => false
  | concat a b => nullable a && nullable b
  | alternate a b => nullable a || nullable b
  | star _ => true

/-- The expression matching the texts `s` such that the given expression matches `c :: s`. -/
def deriv : Regexp → Char → Regexp
  | noMatch, _ => noMatch
  | emptyMatch, _ => noMatch
  | charClass rs, c => if inClass rs c then emptyMatch else noMatch
  | concat a b, c =>
    if nullable a then alternate (concat (deriv a c) b) (deriv b c) else concat (deriv a c) b
  | alternate a b, c => alternate (deriv a c) (deriv b c)
  | star a, c => concat (deriv a c) (star a)

/-- Whether the expression matches the whole text: what `MatchString` answers for a pattern
anchored by `^` and `$`. -/
def matchString : Regexp → Str → Bool
  | re, [] => nullable re
  | re, c :: cs => matchString (deriv re c) cs

/-- The texts matched as a whole by an expression. -/
inductive Matches : Regexp → Str → Prop where
  | emptyMatch : Matches emptyMatch []
  | charClass (rs : List (Char × Char)) (c : Char) : inClass rs c = true → Matches (charClass rs) [c]
  | concat (a b : Regexp) (x y : Str) : Matches a x → Matches b y → Matches (concat a b) (x ++ y)
  | left (a b : Regexp) (x : Str) : Matches a x → Matches (alternate a b) x
  | right (a b : Regexp) (x : Str) : Matches b x → Matches (alternate a b) x
  | starNil (a : Regexp) : Matches (star a) []
  | starCons (a : Regexp) (x y : Str) : Matches a x → Matches (star a) y → Matches (star a) (x ++ y)

end Regexp

end regexp

namespace parser

open regexp.Regexp in
/-- The class `\w` of Go regular expressions: `[0-9A-Za-z_]`. -/
def wordClass : regexp.Regexp := charClass [('0', '9'), ('A', 'Z'), ('_', '_'), ('a', 'z')]

open regexp.Regexp in
/-- The class `\s` of Go regular expressions: tab, line feed, form feed, carriage return and
space. -/
def spaceClass : regexp.Regexp :=
  charClass [(Char.ofNat 9, Char.ofNat 10), (Char.ofNat 12, Char.ofNat 13), (' ', ' ')]

open regexp.Regexp in
/-- The group `([1-9]|1[0-2])`. -/
def hourGroup : regexp.Regexp :=
  alternate (charClass [('1', '9')]) (concat (literal '1') (charClass [('0', '2')]))

open regexp.Regexp in
/-- The pattern of `sanitizeRecipe`,
`^(\w+)\s+([1-9]|1[0-2])\s*(AM)\s*-\s*([1-9]|1[0-2])\s*(PM)$`, the anchors being rendered by
matching the whole text. -/
def pattern : regexp.Regexp :=
  concat (plus wordClass) <| concat (plus spaceClass) <| concat hourGroup <|
    concat (star spaceClass) <| concat (literals "AM".toList) <| concat (star spaceClass) <|
    concat (literal '-') <| concat (star spaceClass) <| concat hourGroup <|
    concat (star spaceClass) (literals "PM".toList)

/-- The method `sanitizeRecipe` of `pkg/parser/parser.go`.  `FindStringSubmatch` returns the
whole match and the five groups, six strings, when the pattern matches and `nil` otherwise,
so `len(matches) != 6` holds exactly when the delivery does not match. -/
def sanitizeRecipe (recipe : Recipe) : Bool :=
  if recipe.Postcode = [] then false
  else if len recipe.Postcode > 10 then false
  else if recipe.Delivery = [] then false
  else if !(regexp.Regexp.matchString pattern recipe.Delivery) then false
  else if recipe.Recipe = [] then false
  else if len recipe.Recipe > 100 then false
  else true

end parser

namespace stats

/-- The function `parseHour` of `pkg/stats/stats.go`. -/
def parseHour (hourString : Str) : Except Err Int :=
  let hourTrimmed := strings.TrimSuffix hourString "AM".toList
  let hourTrimmed := strings.TrimSuffix hourTrimmed "PM".toList
  match strconv.Atoi hourTrimmed with
  | .error err => .error err
  | .ok hourInt =>
    if hourInt < 1 ∨ hourInt > 12 then .error (Err.new "hour is not in range 1-12")
    else
      let hourInt := if strings.Contains hourString "AM".toList && hourInt == 12 then 0 else hourInt
      let hourInt := if strings.Contains hourString "PM".toList then hourInt + 12 else hourInt
      .ok hourInt

/-- The method `isDeliveryTimeInRange` of `pkg/stats/stats.go`. -/
def isDeliveryTimeInRange (delivery startHour endHour : Str) : Except Err Bool :=
  match parseHour startHour with
  | .error err => .error (Err.wrap err "failed to parse start hour")
  | .ok startHourInt =>
  match parseHour endHour with
  | .error err => .error (Err.wrap err "failed to parse end hour")
  | .ok endHourInt =>
  match strings.SplitN delivery " ".toList 2 with
  | [_, rest] =>
    (match strings.SplitN rest " - ".toList 2 with
    | [deliveryStart, deliveryEnd] =>
      (match parseHour deliveryStart with
      | .error err => .error (Err.wrap err "failed to parse delivery start hour")
      | .ok deliveryStartHourInt =>
      match parseHour deliveryEnd with
      | .error err => .error (Err.wrap err "failed to parse delivery end hour")
      | .ok deliveryEndHourInt =>
        if deliveryStartHourInt ≤ startHourInt ∧ endHourInt < deliveryEndHourInt then .ok true
        else .ok false)
    | _ => .error (Err.new "failed to split delivery time"))
  | _ => .error (Err.new "failed to split delivery string")

/-- The struct `RecipeCount` of `pkg/stats/types.go`. -/
structure RecipeCount where
  Recipe : Str
  Count : Nat
  deriving DecidableEq, Repr

/-- The struct `BusiestPostcode` of `pkg/stats/types.go`. -/
structure BusiestPostcode where
  Postcode : Str
  DeliveryCount : Nat
  deriving DecidableEq, Repr

/-- The struct `CountPerPostcodeAndTime` of `pkg/stats/types.go`. -/
structure CountPerPostcodeAndTime where
  Postcode : Str
  From : Str
  To : Str
  DeliveryCount : Nat
  deriving DecidableEq, Repr

/-- The struct `ResponseData` of `pkg/stats/types.go`. -/
structure ResponseData where
  UniqueRecipeCount : Nat
  CountPerRecipe : List RecipeCount
  BusiestPostcode : BusiestPostcode
  CountPerPostcodeAndTime : CountPerPostcodeAndTime
  MatchByName : List Str
  deriving DecidableEq, Repr

/-- The method `containsWords` of `pkg/stats/stats.go`. -/
def containsWords (caseTable : Char → Char) (recipe : Str) (words : GoMap Bool) : Bool :=
  (strings.Fields recipe).any fun recipeWord =>
    GoMap.get false words (strings.ToLower caseTable recipeWord)

/-- The method `uniqueRecipeCount` of `pkg/stats/stats.go`. -/
def uniqueRecipeCount (sortedKeys : List Str) (recipeCounts : GoMap Nat) : List RecipeCount :=
  sortedKeys.map fun k => { Recipe := k, Count := GoMap.get 0 recipeCounts k }

/-- The function `sortKeys` of `pkg/stats/stats.go`. -/
def sortKeys (m : GoMap Nat) : List Str := slices.sort (GoMap.keys m)

/-- The local variables of `Generate` that the loop over the stream updates. -/
structure Vars where
  recipeCounts : GoMap Nat
  postCodeCounts : GoMap Nat
  postCodeMaxDeliveries : Str
  specificPostCodeDeliveries : Nat
  recipesContainingWords : GoMap Nat
  deriving DecidableEq, Repr

/-- The values of the local variables of `Generate` before the loop. -/
def initVars : Vars :=
  { recipeCounts := [], postCodeCounts := [], postCodeMaxDeliveries := [],
    specificPostCodeDeliveries := 0, recipesContainingWords := [] }

/-- The map `wordsMap` built by `Generate` from the configured words. -/
def wordsMap (caseTable : Char → Char) (words : List Str) : GoMap Bool :=
  words.foldl (fun m word => GoMap.set m (strings.ToLower caseTable word) true) []

/-- One iteration of the loop of `Generate` over the stream. -/
def loopBody (caseTable : Char → Char) (cfg : config.Config) (words : GoMap Bool) (v : Vars)
    (entry : parser.Entry) : Except Err Vars :=
  if entry.Error ≠ none then .ok v
  else
    let recipeCounts := GoMap.incr v.recipeCounts entry.Recipe.Recipe
    let postCodeCounts := GoMap.incr v.postCodeCounts entry.Recipe.Postcode
    let postCodeMaxDeliveries :=
      if GoMap.get 0 postCodeCounts entry.Recipe.Postcode >
          GoMap.get 0 postCodeCounts v.postCodeMaxDeliveries
      then entry.Recipe.Postcode else v.postCodeMaxDeliveries
    let recipesContainingWords :=
      if containsWords caseTable entry.Recipe.Recipe words
      then GoMap.incr v.recipesContainingWords entry.Recipe.Recipe
      else v.recipesContainingWords
    if entry.Recipe.Postcode = cfg.Postcode then
      match isDeliveryTimeInRange entry.Recipe.Delivery cfg.FromTime cfg.ToTime with
      | .error err => .error (Err.wrap err "failed to check if delivery time is in range")
      | .ok inRange =>
        .ok { recipeCounts := recipeCounts, postCodeCounts := postCodeCounts,
              postCodeMaxDeliveries := postCodeMaxDeliveries,
              specificPostCodeDeliveries :=
                if inRange then v.specificPostCodeDeliveries + 1
                else v.specificPostCodeDeliveries,
              recipesContainingWords := recipesContainingWords }
    else
      .ok { recipeCounts := recipeCounts, postCodeCounts := postCodeCounts,
            postCodeMaxDeliveries := postCodeMaxDeliveries,
            specificPostCodeDeliveries := v.specificPostCodeDeliveries,
            recipesContainingWords := recipesContainingWords }

/-- The loop of `Generate` over the entries of the stream, left at the first error. -/
def loop (caseTable : Char → Char) (cfg : config.Config) (words : GoMap Bool) :
    List parser.Entry → Vars → Except Err Vars
  | [], v => .ok v
  | entry :: rest, v =>
    match loopBody caseTable cfg words v entry with
    | .error err => .error err
    | .ok v' => loop caseTable cfg words rest v'

/-- The method `Generate` of `pkg/stats/stats.go`, on the entries that the parser streams. -/
def Generate (caseTable : Char → Char) (cfg : config.Config) (stream : List parser.Entry) :
    Except Err ResponseData :=
  match loop caseTable cfg (wordsMap caseTable cfg.Words) stream initVars with
  | .error err => .error err
  | .ok v =>
    let sortedKeys := sortKeys v.recipeCounts
    let countPerRecipe := uniqueRecipeCount sortedKeys v.recipeCounts
    let matchByName := sortKeys v.recipesContainingWords
    .ok { UniqueRecipeCount := v.recipeCounts.length,
          CountPerRecipe := countPerRecipe,
          BusiestPostcode :=
            { Postcode := v.postCodeMaxDeliveries,
              DeliveryCount := GoMap.get 0 v.postCodeCounts v.postCodeMaxDeliveries },
          CountPerPostcodeAndTime :=
            { Postcode := cfg.Postcode, From := cfg.FromTime, To := cfg.ToTime,
              DeliveryCount := v.specificPostCodeDeliveries },
          MatchByName := matchByName }

end stats

namespace parser

/-- What `Parse` meets when it reads its source.  `openError` is the error of `os.Open` and
`openingDelimiterError` the error of the `decoder.Token()` before the loop.  `elements` lists
the turns of the loop `for decoder.More()` that the decoder leaves behind: for each, the value
that `decoder.Decode(&recipe)` leaves in `recipe` and the error that it returns, which is
`nil`, or the type mismatch of an element that was read whole, or, in the last turn, an error
after which `More()` is false.  `stuckError` is the error on
which the decoder stays after those turns, when it does: a syntax error or a read error, which
`Decode` returns on every further call without writing to `recipe`, while `More()` stays
true; it is `none` when `More()` is false after the turns of `elements`.
`closingDelimiterError` is the error of the `decoder.Token()` after the loop.  `none` is Go's
`nil`. -/
structure Source where
  openError : Option Err
  openingDelimiterError : Option Err
  elements : List (Recipe × Option Err)
  stuckError : Option Err
  closingDelimiterError : Option Err
  deriving DecidableEq, Repr

/-- How far a run has come: the entries sent on the channel, in order, and whether the run has
ended; a run of `Parse` that has ended has closed the channel. -/
structure Run where
  sent : List Entry
  ended : Bool
  deriving DecidableEq, Repr

/-- The entry `Entry{Error: errors.Wrap(err, message)}`; its record is the zero value. -/
def errorEntry (err : Err) (message : String) : Entry :=
  { Recipe := { Recipe := [], Postcode := [], Delivery := [] },
    Error := some (Err.wrap err message) }

/-- One turn of the loop of `Parse`, from the result of `decoder.Decode(&recipe)`: `sent`
holds what the channel has received so far. -/
def loopBody (recipe : Recipe) (decodeError : Option Err) (sent : List Entry) : List Entry :=
  let sent :=
    match decodeError with
    | some err => sent ++ [errorEntry err "failed to decode recipe"]
    | none => sent
  if !sanitizeRecipe recipe then sent
  else sent ++ [{ Recipe := recipe, Error := none }]

/-- The loop `for decoder.More()` of `Parse`, followed for at most `turns` turns.  On a stuck
decoder `recipe` keeps the zero value of its declaration `var recipe Recipe`, and the turn is
taken again. -/
def parseLoop : Nat → List (Recipe × Option Err) → Option Err → List Entry → Run
  | _, [], none, sent => { sent := sent, ended := true }
  | 0, _, _, sent => { sent := sent, ended := false }
  | turns + 1, (recipe, decodeError) :: rest, stuckError, sent =>
    parseLoop turns rest stuckError (loopBody recipe decodeError sent)
  | turns + 1, [], some err, sent =>
    parseLoop turns [] (some err)
      (loopBody { Recipe := [], Postcode := [], Delivery := [] } (some err) sent)

/-- The method `Parse` of `pkg/parser/parser.go`, its loop followed for at most `turns` turns:
the entries sent on the channel, in order, and whether `Parse` has returned, closing the
channel. -/
def Parse (turns : Nat) (source : Source) : Run :=
  match source.openError with
  | some err => { sent := [errorEntry err "failed to open file"], ended := true }
  | none =>
    let sent :=
      match source.openingDelimiterError with
      | some err => [errorEntry err "failed to read opening delimiter"]
      | none => []
    let run := parseLoop turns source.elements source.stuckError sent
    if !run.ended then run
    else
      match source.closingDelimiterError with
      | some err =>
        { sent := run.sent ++ [errorEntry err "failed to read closing delimiter"],
          ended := true }
      | none => run

end parser

/-! ## Definitions used to state the theorems -/

namespace stats

/-- The records of the stream entries that carry no error, in stream order. -/
def records (stream : List parser.Entry) : List parser.Recipe :=
  (stream.filter fun entry => entry.Error = none).map fun entry => entry.Recipe

/-- The postcodes of the records of the stream, in stream order. -/
def postcodes (stream : List parser.Entry) : List Str :=
  (records stream).map fun recipe => recipe.Postcode

/-- The recipe names of the records of the stream, in stream order. -/
def recipeNames (stream : List parser.Entry) : List Str :=
  (records stream).map fun recipe => recipe.Recipe

end stats

namespace config

/-- The configuration that `ReadConfig` returns when no environment variable is set: the
`envDefault` tags of `Config`. -/
def defaultConfig : Config :=
  { File := "/app/files/fixtures.json".toList,
    Words := ["Potato".toList, "Mushroom".toList, "Veggie".toList],
    Postcode := "10120".toList,
    FromTime := "10AM".toList,
    ToTime := "3PM".toList }

end config

namespace stats

/-- A stream entry without error: the record of the given postcode and recipe, delivered
`Monday 9AM - 5PM` as in the fixtures of the tests. -/
def recordEntry (postcode recipe : String) : parser.Entry :=
  { Recipe := { Recipe := recipe.toList, Postcode := postcode.toList,
                Delivery := "Monday 9AM - 5PM".toList },
    Error := none }

/-- One step of the search for the busiest postcode (lines 53 to 58 of `stats.go`) on the pair
of `postCodeCounts` and `postCodeMaxDeliveries`. -/
def busiestStep (acc : GoMap Nat × Str) (postcode : Str) : GoMap Nat × Str :=
  (GoMap.incr acc.1 postcode,
    if GoMap.get 0 (GoMap.incr acc.1 postcode) postcode >
        GoMap.get 0 (GoMap.incr acc.1 postcode) acc.2
    then postcode else acc.2)

end stats

namespace GoMap

/-- The map that counts the occurrences of each string of a list: `m[k]++` for each. -/
def tally (names : List Str) (m : GoMap Nat) : GoMap Nat := names.foldl incr m

end GoMap

namespace stats

/-- The enclosure test on a delivery string, in the words of the specification: the delivery
reads `<day> <start> - <end>`, the four hour tokens parse, and `deliveryStart <= fromHour`
and `toHour < deliveryEnd`. -/
def Encloses (delivery fromHour toHour : Str) : Prop :=
  ∃ (day start stop : Str) (ds de f t : Int),
    delivery = day ++ " ".toList ++ start ++ " - ".toList ++ stop ∧ ' ' ∉ day ∧
    parseHour start = .ok ds ∧ parseHour stop = .ok de ∧
    parseHour fromHour = .ok f ∧ parseHour toHour = .ok t ∧ ds ≤ f ∧ t < de

/-- Whether a record counts for the configured postcode and time window: lines 65 to 72 of
`stats.go`. -/
def countsForWindow (cfg : config.Config) (recipe : parser.Recipe) : Bool :=
  decide (recipe.Postcode = cfg.Postcode) &&
    decide (isDeliveryTimeInRange recipe.Delivery cfg.FromTime cfg.ToTime = .ok true)

end stats

namespace strings

/-- The whitespace-separated words of a text, in the words of the specification: `w` is a
non-empty run of non-space runes of `s`, preceded by a space or by the start of `s` and
followed by a space or by the end of `s`. -/
def IsWordOf (w s : Str) : Prop :=
  w ≠ [] ∧ (∀ c ∈ w, unicode.IsSpace c = false) ∧
    ∃ pre post : Str, s = pre ++ w ++ post ∧
      (∀ c, pre.getLast? = some c → unicode.IsSpace c = true) ∧
      (∀ c, post.head? = some c → unicode.IsSpace c = true)

end strings

namespace parser

/-- A word of the delivery grammar: one or more letters, digits or underscores. -/
def IsWord (w : Str) : Prop :=
  w ≠ [] ∧
    ∀ c ∈ w, regexp.Regexp.inClass [('0', '9'), ('A', 'Z'), ('_', '_'), ('a', 'z')] c = true

/-- Whitespace of the delivery grammar, possibly none: tabs, line feeds, form feeds, carriage
returns and spaces. -/
def IsSpaces (w : Str) : Prop :=
  ∀ c ∈ w, regexp.Regexp.inClass
    [(Char.ofNat 9, Char.ofNat 10), (Char.ofNat 12, Char.ofNat 13), (' ', ' ')] c = true

/-- An hour numeral of the delivery grammar: the decimal numeral of a number from 1 to 12. -/
def IsHour (h : Str) : Prop := ∃ n : Nat, 1 ≤ n ∧ n ≤ 12 ∧ h = Nat.toDigits 10 n

/-- The delivery grammar that `sanitizeRecipe` accepts: a word, whitespace, an hour numeral,
optional whitespace, `AM`, a dash with optional whitespace on either side, an hour numeral,
optional whitespace, `PM`. -/
def DeliveryGrammar (s : Str) : Prop :=
  ∃ word sp1 h1 sp2 sp3 sp4 h2 sp5 : Str,
    IsWord word ∧ sp1 ≠ [] ∧ IsSpaces sp1 ∧ IsHour h1 ∧ IsSpaces sp2 ∧ IsSpaces sp3 ∧
    IsSpaces sp4 ∧ IsHour h2 ∧ IsSpaces sp5 ∧
    s = word ++ sp1 ++ h1 ++ sp2 ++ "AM".toList ++ sp3 ++ "-".toList ++ sp4 ++ h2 ++ sp5 ++
      "PM".toList

end parser

namespace stats

/-- A small stream: three records and, third, an entry that carries a decoding error. -/
def sampleStream : List parser.Entry :=
  [recordEntry "10120" "Veggie Bowl",
   recordEntry "10224" "Cherry Balsamic Pork Chops",
   { Recipe := { Recipe := [], Postcode := [], Delivery := [] },
     Error := some (Err.wrap (Err.other "unexpected end of JSON input")
       "failed to decode recipe") },
   recordEntry "10120" "Cherry Balsamic Pork Chops"]

/-- The report of `Generate` on `sampleStream` under the default configuration. -/
def sampleReport : ResponseData :=
  { UniqueRecipeCount := 2,
    CountPerRecipe :=
      [{ Recipe := "Cherry Balsamic Pork Chops".toList, Count := 2 },
       { Recipe := "Veggie Bowl".toList, Count := 1 }],
    BusiestPostcode := { Postcode := "10120".toList, DeliveryCount := 2 },
    CountPerPostcodeAndTime :=
      { Postcode := "10120".toList, From := "10AM".toList, To := "3PM".toList,
        DeliveryCount := 2 },
    MatchByName := ["Veggie Bowl".toList] }

end stats

namespace strings

/-- The text `s` is cut at its first `sep`: it reads `a`, then `sep`, then `b`, and `sep`
does not occur in `s` any earlier. -/
def CutsAt (s sep a b : Str) : Prop :=
  s = a ++ sep ++ b ∧ ∀ a' b' : Str, s = a' ++ sep ++ b' → a.length ≤ a'.length

end strings

namespace stats

/-- A delivery string that cannot be read as `<day> <start> - <end>` with two hour tokens: it
holds no space; or its time part, what follows its first space, holds no ` - `; or the
delivery start or the delivery end, the tokens around the first ` - ` of the time part, is
rejected by `parseHour`. -/
def Unreadable (delivery : Str) : Prop :=
  ' ' ∉ delivery ∨
  ∃ day rest : Str, strings.CutsAt delivery " ".toList day rest ∧
    ((¬ ∃ a b : Str, rest = a ++ " - ".toList ++ b) ∨
      ∃ start stop : Str, strings.CutsAt rest " - ".toList start stop ∧
        ((∃ err, parseHour start = .error err) ∨ ∃ err, parseHour stop = .error err))

end stats

namespace parser

/-- A well-formed input array: the source opens, both delimiters are read, and every element
decodes. -/
def WellFormed (source : Source) : Prop :=
  source.openError = none ∧ source.openingDelimiterError = none ∧
    source.closingDelimiterError = none ∧ source.stuckError = none ∧
    ∀ element ∈ source.elements, element.2 = none

/-- What the loop of `Parse` sends for one array element: an error entry when the element
fails to decode, then the record when it passes `sanitizeRecipe`. -/
def sentFor (element : Recipe × Option Err) : List Entry :=
  (match element.2 with
    | some err => [errorEntry err "failed to decode recipe"]
    | none => []) ++
  (if sanitizeRecipe element.1 then [{ Recipe := element.1, Error := none }] else [])

/-- The source of the input array whose elements, all decoded, are the given records. -/
def arraySource (records : List Recipe) : Source :=
  { openError := none, openingDelimiterError := none,
    elements := records.map fun recipe => (recipe, none),
    stuckError := none, closingDelimiterError := none }

/-- The valid record of the tests: `12345`, `Monday 9AM - 5PM`, `RecipeA`. -/
def recipeA : Recipe :=
  { Recipe := "RecipeA".toList, Postcode := "12345".toList,
    Delivery := "Monday 9AM - 5PM".toList }

/-- The second valid record of the tests: `12345`, `Monday 10AM - 6PM`, `RecipeB`. -/
def recipeB : Recipe :=
  { Recipe := "RecipeB".toList, Postcode := "12345".toList,
    Delivery := "Monday 10AM - 6PM".toList }

/-- The invalid record of the tests: `12345`, `InvalidTimeFormat`, `RecipeA`. -/
def recipeInvalid : Recipe :=
  { Recipe := "RecipeA".toList, Postcode := "12345".toList,
    Delivery := "InvalidTimeFormat".toList }

end parser

namespace strconv

/-- A decimal numeral: one or more of the digits `0` to `9`. -/
def IsDecimalNumeral (s : Str) : Prop := s ≠ [] ∧ ∀ c ∈ s, 48 ≤ c.toNat ∧ c.toNat ≤ 57

/-- The value of a decimal numeral. -/
def decimalValue (s : Str) : Nat := s.foldl (fun n c => n * 10 + (c.toNat - 48)) 0

end strconv

namespace stats

/-- What `parseHour` hands to `strconv.Atoi`: the hour string with a trailing `AM` removed and
then a trailing `PM` removed. -/
def trimmed (hourString : Str) : Str :=
  strings.TrimSuffix (strings.TrimSuffix hourString "AM".toList) "PM".toList

end stats

namespace unicode

/-- The letters of the ASCII alphabet, each capital letter paired with its small letter. -/
def asciiLetters : List (Char × Char) :=
  List.zip "ABCDEFGHIJKLMNOPQRSTUVWXYZ".toList "abcdefghijklmnopqrstuvwxyz".toList

/-- The form of a rune in which case is ignored: the small letter for a capital letter of the
ASCII alphabet, the rune itself for any other ASCII rune, and above ASCII the small form that
the case tables of the Unicode standard give. -/
def caseless (caseTable : Char → Char) (r : Char) : Char :=
  match asciiLetters.lookup r with
  | some small => small
  | none => if r.toNat < 128 then r else caseTable r

end unicode

namespace strings

/-- Equality of two words, ignoring case: the words have the same length and at each
position their runes are the same once case is ignored. -/
def EqualIgnoringCase (caseTable : Char → Char) (a b : Str) : Prop :=
  a.length = b.length ∧
    ∀ p ∈ List.zip a b, unicode.caseless caseTable p.1 = unicode.caseless caseTable p.2

end strings

namespace stats

/-- A stream whose recipe names differ in letter case from the configured keywords `Potato`,
`Mushroom` and `Veggie`. -/
def caseStream : List parser.Entry :=
  [recordEntry "10120" "Spicy VEGGIE Bowl",
   recordEntry "10224" "Potatoey stew",
   recordEntry "10120" "creamy mushroom Pasta"]

/-- The report of `Generate` on `caseStream` under the default configuration. -/
def caseReport : ResponseData :=
  { UniqueRecipeCount := 3,
    CountPerRecipe :=
      [{ Recipe := "Potatoey stew".toList, Count := 1 },
       { Recipe := "Spicy VEGGIE Bowl".toList, Count := 1 },
       { Recipe := "creamy mushroom Pasta".toList, Count := 1 }],
    BusiestPostcode := { Postcode := "10120".toList, DeliveryCount := 2 },
    CountPerPostcodeAndTime :=
      { Postcode := "10120".toList, From := "10AM".toList, To := "3PM".toList,
        DeliveryCount := 2 },
    MatchByName := ["Spicy VEGGIE Bowl".toList, "creamy mushroom Pasta".toList] }

end stats

/-! ## Theorems -/

/-- C1: `parseHour` maps every well-formed hour token to the reference value: for `1 ≤ h ≤ 11`
the token `h` followed by `AM` gives `h` and followed by `PM` gives `h + 12`; `12AM` gives `0`
and `12PM` gives `24`; none of them is an error. -/
theorem stats.parseHour_reference :
    (∀ h : Nat, 1 ≤ h → h ≤ 11 →
      stats.parseHour (Nat.toDigits 10 h ++ "AM".toList) = .ok (h : Int) ∧
      stats.parseHour (Nat.toDigits 10 h ++ "PM".toList) = .ok ((h : Int) + 12)) ∧
    stats.parseHour "12AM".toList = .ok 0 ∧ stats.parseHour "12PM".toList = .ok 24 := by
  refine ⟨?_, by decide, by decide⟩
  intro h h1 h11
  interval_cases h <;> decide

/-- C1 at the hour 9: `9AM` is 9 and `9PM` is 21. -/
theorem stats.parseHour_reference_witness :
    stats.parseHour "9AM".toList = .ok 9 ∧ stats.parseHour "9PM".toList = .ok 21 :=
  stats.parseHour_reference.1 9 (by decide) (by decide)

/-! ### Window enclosure -/

namespace strings

theorem Index_single (day rest : Str) (c : Char) (h : c ∉ day) :
    Index (day ++ c :: rest) [c] = some day.length := by
  induction day with
  | nil => simp [Index, List.isPrefixOf]
  | cons d day ih =>
    have hd : c ≠ d := by rintro rfl; exact h (List.mem_cons_self _ _)
    have hday : c ∉ day := fun e => h (List.mem_cons_of_mem _ e)
    simp [Index, List.isPrefixOf, hd, ih hday]

theorem Index_dash (s rest : Str) (h : ' ' ∉ s) :
    Index (s ++ ' ' :: '-' :: ' ' :: rest) [' ', '-', ' '] = some s.length := by
  induction s with
  | nil => simp [Index, List.isPrefixOf]
  | cons d s ih =>
    have hd : ' ' ≠ d := by rintro rfl; exact h (List.mem_cons_self _ _)
    have hs : ' ' ∉ s := fun e => h (List.mem_cons_of_mem _ e)
    simp [Index, List.isPrefixOf, hd, ih hs]

theorem SplitN_single (day rest : Str) (c : Char) (h : c ∉ day) :
    SplitN (day ++ c :: rest) [c] 2 = [day, rest] := by
  simp [SplitN, Index_single day rest c h]

theorem SplitN_dash (s rest : Str) (h : ' ' ∉ s) :
    SplitN (s ++ ' ' :: '-' :: ' ' :: rest) [' ', '-', ' '] 2 = [s, rest] := by
  simp [SplitN, Index_dash s rest h]

theorem HasSuffix_split (s suffix : Str) (h : HasSuffix s suffix = true) :
    s = s.take (s.length - suffix.length) ++ suffix := by
  simp only [HasSuffix, Bool.and_eq_true, decide_eq_true_eq, beq_iff_eq] at h
  conv_lhs => rw [← List.take_append_drop (s.length - suffix.length) s]
  rw [h.2]

theorem mem_TrimSuffix (s suffix : Str) (c : Char) (hc : c ∈ s) (hs : c ∉ suffix) :
    c ∈ TrimSuffix s suffix := by
  unfold TrimSuffix
  split
  · next h =>
    have := HasSuffix_split s suffix h
    rw [this] at hc
    rcases List.mem_append.1 hc with h1 | h1
    · exact h1
    · exact absurd h1 hs
  · exact hc

end strings

namespace strconv

theorem digitsValue_digits (s : Str) : ∀ (n v : Nat), digitsValue s n = some v →
    ∀ c ∈ s, 48 ≤ c.toNat ∧ c.toNat ≤ 57 := by
  induction s with
  | nil => intro n v _ c hc; simp at hc
  | cons d s ih =>
    intro n v h c hc
    unfold digitsValue at h
    split at h
    · next hd =>
      rcases List.mem_cons.1 hc with rfl | hc
      · exact hd
      · exact ih _ _ h c hc
    · simp at h

theorem Atoi_no_space (s : Str) (v : Int) (h : Atoi s = .ok v) : ' ' ∉ s := by
  intro hmem
  have hmem' : ' ' ∈ (if s.head? = some '-' ∨ s.head? = some '+' then s.tail else s) := by
    split
    · next hsign =>
      cases s with
      | nil => simp at hmem
      | cons c t =>
        rcases List.mem_cons.1 hmem with e | e
        · subst e; simp at hsign
        · simpa using e
    · exact hmem
  unfold Atoi at h
  simp only at h
  generalize (if s.head? = some '-' ∨ s.head? = some '+' then s.tail else s) = digits at h hmem'
  split at h
  · simp at h
  · split at h
    · simp at h
    · next n hn =>
      have := digitsValue_digits _ _ _ hn _ hmem'
      simp at this

end strconv

namespace stats

theorem parseHour_no_space (s : Str) (v : Int) (h : parseHour s = .ok v) : ' ' ∉ s := by
  intro hmem
  unfold parseHour at h
  simp only at h
  split at h
  · simp at h
  · next hourInt hA =>
    have h1 := strings.mem_TrimSuffix s "AM".toList ' ' hmem (by decide)
    have h2 := strings.mem_TrimSuffix _ "PM".toList ' ' h1 (by decide)
    exact strconv.Atoi_no_space _ _ hA h2

/-- On a delivery `<day> <start> - <end>` whose hour tokens parse, as do the configured
hours, `isDeliveryTimeInRange` returns the enclosure test without error. -/
theorem isDeliveryTimeInRange_eq (day start stop fromHour toHour : Str) (ds de f t : Int)
    (hday : ' ' ∉ day)
    (hs : parseHour start = .ok ds) (he : parseHour stop = .ok de)
    (hf : parseHour fromHour = .ok f) (ht : parseHour toHour = .ok t) :
    isDeliveryTimeInRange (day ++ " ".toList ++ start ++ " - ".toList ++ stop) fromHour toHour
      = .ok (decide (ds ≤ f ∧ t < de)) := by
  have e1 : day ++ " ".toList ++ start ++ " - ".toList ++ stop
      = day ++ ' ' :: (start ++ ' ' :: '-' :: ' ' :: stop) := by simp
  have s1 := strings.SplitN_single day (start ++ ' ' :: '-' :: ' ' :: stop) ' ' hday
  have s2 := strings.SplitN_dash start stop (parseHour_no_space _ _ hs)
  unfold isDeliveryTimeInRange
  rw [e1]
  simp only [hf, ht, String.toList]
  rw [s1]
  simp only
  rw [s2]
  simp only [hs, he]
  by_cases hc : ds ≤ f ∧ t < de
  · simp [hc]
  · simp [hc]

end stats

/-- C2: window enclosure.  For a delivery `<day> <start> - <end>`, the day holding no space, and
hours `fromHour`, `toHour`, all four hour tokens being parsed by `parseHour`,
`isDeliveryTimeInRange` returns true without error exactly when
`parseHour start ≤ parseHour fromHour` and `parseHour toHour < parseHour end`, and returns
false without error otherwise.  The three deliveries of the test suite are decided
accordingly. -/
theorem stats.isDeliveryTimeInRange_enclosure :
    (∀ (day start stop fromHour toHour : Str) (ds de f t : Int), ' ' ∉ day →
      stats.parseHour start = .ok ds → stats.parseHour stop = .ok de →
      stats.parseHour fromHour = .ok f → stats.parseHour toHour = .ok t →
      (stats.isDeliveryTimeInRange (day ++ " ".toList ++ start ++ " - ".toList ++ stop)
          fromHour toHour = .ok true ↔ ds ≤ f ∧ t < de) ∧
      (stats.isDeliveryTimeInRange (day ++ " ".toList ++ start ++ " - ".toList ++ stop)
          fromHour toHour = .ok false ↔ ¬ (ds ≤ f ∧ t < de))) ∧
    stats.isDeliveryTimeInRange "Monday 9AM - 5PM".toList "10AM".toList "3PM".toList
      = .ok true ∧
    stats.isDeliveryTimeInRange "Monday 11AM - 5PM".toList "10AM".toList "3PM".toList
      = .ok false ∧
    stats.isDeliveryTimeInRange "Monday 12AM - 11PM".toList "8AM".toList "9AM".toList
      = .ok true := by
  refine ⟨?_, by decide, by decide, by decide⟩
  intro day start stop fromHour toHour ds de f t hday hs he hf ht
  rw [stats.isDeliveryTimeInRange_eq day start stop fromHour toHour ds de f t hday hs he hf ht]
  by_cases hc : ds ≤ f ∧ t < de
  · simp [hc]
  · simp [hc]

/-- C2 at the delivery `Monday 9AM - 5PM` against the window 10AM to 3PM. -/
theorem stats.isDeliveryTimeInRange_enclosure_witness :
    ' ' ∉ "Monday".toList ∧
    (stats.isDeliveryTimeInRange
        ("Monday".toList ++ " ".toList ++ "9AM".toList ++ " - ".toList ++ "5PM".toList)
        "10AM".toList "3PM".toList = .ok true ↔ (9 : Int) ≤ 10 ∧ (15 : Int) < 17) :=
  ⟨by decide,
    (stats.isDeliveryTimeInRange_enclosure.1 "Monday".toList "9AM".toList "5PM".toList
      "10AM".toList "3PM".toList 9 17 10 15 (by decide) (by decide) (by decide) (by decide)
      (by decide)).1⟩

/-! ### Maps and the loop of `Generate` -/

namespace GoMap

theorem get_cons {V : Type} (zero : V) (m : GoMap V) (a k : Str) (b : V) :
    get zero ((a, b) :: m) k = if k = a then b else get zero m k := by
  by_cases h : k = a
  · subst h
    simp [get, List.lookup]
  · have h3 : (k == a) = false := by simpa using h
    simp [get, List.lookup, h3, h]

theorem get_set {V : Type} (zero : V) (m : GoMap V) (k k' : Str) (v : V) :
    get zero (set m k v) k' = if k' = k then v else get zero m k' := by
  induction m with
  | nil =>
    show get zero [(k, v)] k' = _
    rw [get_cons]
  | cons a m ih =>
    obtain ⟨a1, a2⟩ := a
    unfold set
    by_cases h1 : a1 = k
    · subst h1
      simp only [if_true]
      rw [get_cons, get_cons]
      by_cases h : k' = a1 <;> simp [h]
    · simp only [h1, if_false]
      rw [get_cons, get_cons, ih]
      by_cases h2 : k' = a1
      · have : k' ≠ k := fun e => h1 (h2 ▸ e)
        simp [h2, this, h1]
      · simp [h2]

theorem get_incr (m : GoMap Nat) (k k' : Str) :
    get 0 (incr m k) k' = if k' = k then get 0 m k + 1 else get 0 m k' := by
  unfold incr
  rw [get_set]

theorem get_nil {V : Type} (zero : V) (k : Str) : get zero ([] : GoMap V) k = zero := rfl

end GoMap

namespace stats

/-- What one iteration of the loop of `Generate` does to the local variables when it does not
leave the loop. -/
theorem loopBody_ok (caseTable : Char → Char) (cfg : config.Config) (words : GoMap Bool)
    (v v' : Vars) (entry : parser.Entry) (h : loopBody caseTable cfg words v entry = .ok v') :
    (entry.Error ≠ none ∧ v' = v) ∨
    (entry.Error = none ∧
      v'.recipeCounts = GoMap.incr v.recipeCounts entry.Recipe.Recipe ∧
      v'.postCodeCounts = GoMap.incr v.postCodeCounts entry.Recipe.Postcode ∧
      v'.postCodeMaxDeliveries =
        (if GoMap.get 0 (GoMap.incr v.postCodeCounts entry.Recipe.Postcode)
              entry.Recipe.Postcode >
            GoMap.get 0 (GoMap.incr v.postCodeCounts entry.Recipe.Postcode)
              v.postCodeMaxDeliveries
         then entry.Recipe.Postcode else v.postCodeMaxDeliveries) ∧
      v'.recipesContainingWords =
        (if containsWords caseTable entry.Recipe.Recipe words
         then GoMap.incr v.recipesContainingWords entry.Recipe.Recipe
         else v.recipesContainingWords) ∧
      v'.specificPostCodeDeliveries = v.specificPostCodeDeliveries +
        (if entry.Recipe.Postcode = cfg.Postcode ∧
            isDeliveryTimeInRange entry.Recipe.Delivery cfg.FromTime cfg.ToTime = .ok true
         then 1 else 0) ∧
      (entry.Recipe.Postcode = cfg.Postcode →
        ∃ b, isDeliveryTimeInRange entry.Recipe.Delivery cfg.FromTime cfg.ToTime = .ok b)) := by
  unfold loopBody at h
  by_cases he : entry.Error = none
  · right
    simp only [he, ne_eq, not_true_eq_false, if_false] at h
    refine ⟨he, ?_⟩
    by_cases hp : entry.Recipe.Postcode = cfg.Postcode
    · simp only [hp, if_true] at h
      cases hr : isDeliveryTimeInRange entry.Recipe.Delivery cfg.FromTime cfg.ToTime with
      | error err => rw [hr] at h; simp at h
      | ok b =>
        rw [hr] at h
        simp only [Except.ok.injEq] at h
        subst h
        cases b <;> simp [hp]
    · simp only [hp, if_false, Except.ok.injEq] at h
      subst h
      simp [hp]
  · left
    simp only [ne_eq, he, not_false_eq_true, if_true, Except.ok.injEq] at h
    exact ⟨he, h.symm⟩

theorem records_cons_ok (entry : parser.Entry) (rest : List parser.Entry)
    (h : entry.Error = none) : records (entry :: rest) = entry.Recipe :: records rest := by
  simp [records, List.filter, h]

theorem records_cons_error (entry : parser.Entry) (rest : List parser.Entry)
    (h : entry.Error ≠ none) : records (entry :: rest) = records rest := by
  simp [records, List.filter, h]

theorem loop_busiest (caseTable : Char → Char) (cfg : config.Config) (words : GoMap Bool)
    (stream : List parser.Entry) : ∀ (v v' : Vars),
    loop caseTable cfg words stream v = .ok v' →
    (v'.postCodeCounts, v'.postCodeMaxDeliveries) =
      (postcodes stream).foldl busiestStep (v.postCodeCounts, v.postCodeMaxDeliveries) := by
  induction stream with
  | nil =>
    intro v v' h
    simp only [loop, Except.ok.injEq] at h
    subst h
    rfl
  | cons entry rest ih =>
    intro v v' h
    unfold loop at h
    cases hb : loopBody caseTable cfg words v entry with
    | error err => rw [hb] at h; simp at h
    | ok v1 =>
      rw [hb] at h
      simp only at h
      rw [ih v1 v' h]
      rcases loopBody_ok _ _ _ _ _ _ hb with ⟨he, hv⟩ | ⟨he, _, h2, h3, _⟩
      · subst hv
        simp [postcodes, records_cons_error _ _ he]
      · simp [postcodes, records_cons_ok _ _ he, busiestStep, h2, h3]

end stats

/-! ### Busiest postcode -/

namespace stats

/-- The invariant of the search for the busiest postcode after the postcodes `ps`. -/
theorem busiest_invariant (ps : List Str) :
    (∀ q, GoMap.get 0 (ps.foldl busiestStep ([], [])).1 q = ps.count q) ∧
    (∀ q, ps.count q ≤ ps.count (ps.foldl busiestStep ([], [])).2) ∧
    (ps ≠ [] → ∃ k, k ≤ ps.length ∧
      (ps.take k).count (ps.foldl busiestStep ([], [])).2
        = ps.count (ps.foldl busiestStep ([], [])).2 ∧
      ∀ q, q ≠ (ps.foldl busiestStep ([], [])).2 →
        (ps.take k).count q < ps.count (ps.foldl busiestStep ([], [])).2) := by
  induction ps using List.reverseRecOn with
  | nil =>
    refine ⟨fun q => ?_, fun q => ?_, fun h => absurd rfl h⟩
    · simp [GoMap.get_nil]
    · simp
  | append_singleton ps p ih =>
    obtain ⟨hc, hmax, hfirst⟩ := ih
    rw [List.foldl_append]
    simp only [List.foldl_cons, List.foldl_nil]
    generalize ps.foldl busiestStep ([], []) = acc at hc hmax hfirst ⊢
    obtain ⟨counts, mx⟩ := acc
    simp only at hc hmax hfirst
    have hc' : ∀ q, GoMap.get 0 (GoMap.incr counts p) q = (ps ++ [p]).count q := by
      intro q
      rw [GoMap.get_incr, List.count_append, hc, hc]
      by_cases hq : q = p
      · subst hq; simp
      · have : p ≠ q := fun e => hq e.symm
        simp [hq, List.count_singleton, this]
    have hcp : (ps ++ [p]).count p = ps.count p + 1 := by simp
    have hcq : ∀ q, q ≠ p → (ps ++ [p]).count q = ps.count q := by
      intro q hq
      have : p ≠ q := fun e => hq e.symm
      simp [List.count_singleton, this]
    have htake : (ps ++ [p]).take (ps.length + 1) = ps ++ [p] := by
      rw [List.take_of_length_le]; simp
    unfold busiestStep
    refine ⟨hc', ?_⟩
    simp only [hc']
    by_cases hmp : mx = p
    · subst hmp
      simp only [gt_iff_lt, lt_irrefl, if_false]
      refine ⟨fun q => ?_, fun _ => ⟨ps.length + 1, by simp, ?_, fun q hq => ?_⟩⟩
      · by_cases hq : q = mx
        · subst hq; exact le_refl _
        · rw [hcq q hq, hcp]; exact Nat.le_succ_of_le (hmax q)
      · rw [htake]
      · rw [htake, hcq q hq, hcp]; exact Nat.lt_succ_of_le (hmax q)
    · rw [hcp, hcq mx hmp]
      by_cases hgt : ps.count p + 1 > ps.count mx
      · simp only [hgt, if_true]
        have heq : ps.count p = ps.count mx := by have := hmax p; omega
        refine ⟨fun q => ?_, fun _ => ⟨ps.length + 1, by simp, ?_, fun q hq => ?_⟩⟩
        · by_cases hq : q = p
          · subst hq; exact le_refl _
          · rw [hcq q hq, hcp]; have := hmax q; omega
        · rw [htake]
        · rw [htake, hcq q hq, hcp]; have := hmax q; omega
      · simp only [hgt, if_false]
        have hps : ps ≠ [] := by
          rintro rfl
          simp at hgt
        obtain ⟨k, hk, hk1, hk2⟩ := hfirst hps
        refine ⟨fun q => ?_, fun _ => ⟨k, by simp; omega, ?_, fun q hq => ?_⟩⟩
        · by_cases hq : q = p
          · subst hq; rw [hcp, hcq mx hmp]; omega
          · rw [hcq q hq, hcq mx hmp]; exact hmax q
        · rw [List.take_append_of_le_length hk, hcq mx hmp]; exact hk1
        · rw [List.take_append_of_le_length hk, hcq mx hmp]; exact hk2 q hq

theorem Generate_ok (caseTable : Char → Char) (cfg : config.Config)
    (stream : List parser.Entry) (report : ResponseData)
    (h : Generate caseTable cfg stream = .ok report) :
    ∃ v, loop caseTable cfg (wordsMap caseTable cfg.Words) stream initVars = .ok v ∧
      report =
        { UniqueRecipeCount := v.recipeCounts.length,
          CountPerRecipe := uniqueRecipeCount (sortKeys v.recipeCounts) v.recipeCounts,
          BusiestPostcode :=
            { Postcode := v.postCodeMaxDeliveries,
              DeliveryCount := GoMap.get 0 v.postCodeCounts v.postCodeMaxDeliveries },
          CountPerPostcodeAndTime :=
            { Postcode := cfg.Postcode, From := cfg.FromTime, To := cfg.ToTime,
              DeliveryCount := v.specificPostCodeDeliveries },
          MatchByName := sortKeys v.recipesContainingWords } := by
  unfold Generate at h
  cases hl : loop caseTable cfg (wordsMap caseTable cfg.Words) stream initVars with
  | error err => rw [hl] at h; simp at h
  | ok v =>
    rw [hl] at h
    simp only [Except.ok.injEq] at h
    exact ⟨v, rfl, h.symm⟩

theorem Generate_busiest (caseTable : Char → Char) (cfg : config.Config)
    (stream : List parser.Entry) (report : ResponseData)
    (h : Generate caseTable cfg stream = .ok report) :
    report.BusiestPostcode.Postcode = ((postcodes stream).foldl busiestStep ([], [])).2 ∧
    report.BusiestPostcode.DeliveryCount =
      (postcodes stream).count ((postcodes stream).foldl busiestStep ([], [])).2 := by
  obtain ⟨v, hl, rfl⟩ := Generate_ok _ _ _ _ h
  have hb := loop_busiest _ _ _ _ _ _ hl
  have hinv := busiest_invariant (postcodes stream)
  simp only [initVars] at hb
  rw [← hb] at hinv
  refine ⟨?_, ?_⟩
  · simp only [← hb]
  · simp only [← hb]
    exact hinv.1 _

end stats

section
open stats

/-- C3: busiest postcode.  When `Generate` succeeds on a stream with at least one record,
`busiest_postcode.delivery_count` is the greatest number of records sharing one postcode,
`busiest_postcode.postcode` is a postcode of the stream with that many records, and it is the
first to get there: after some `k` records it has all of them while every other postcode has
fewer.  Postcodes A, A, B give A with 2 and A, B, B give B with 2. -/
theorem stats.Generate_busiestPostcode :
    (∀ (caseTable : Char → Char) (cfg : config.Config) (stream : List parser.Entry)
        (report : ResponseData),
      Generate caseTable cfg stream = .ok report → records stream ≠ [] →
      (∀ q, (postcodes stream).count q ≤ report.BusiestPostcode.DeliveryCount) ∧
      (postcodes stream).count report.BusiestPostcode.Postcode
        = report.BusiestPostcode.DeliveryCount ∧
      report.BusiestPostcode.Postcode ∈ postcodes stream ∧
      ∃ k, k ≤ (postcodes stream).length ∧
        ((postcodes stream).take k).count report.BusiestPostcode.Postcode
          = report.BusiestPostcode.DeliveryCount ∧
        ∀ q, q ≠ report.BusiestPostcode.Postcode →
          ((postcodes stream).take k).count q < report.BusiestPostcode.DeliveryCount) ∧
    (∀ caseTable : Char → Char,
      (Generate caseTable config.defaultConfig
        [recordEntry "A" "RecipeA", recordEntry "A" "RecipeA", recordEntry "B" "RecipeA"]).map
          (fun report => report.BusiestPostcode)
        = .ok { Postcode := "A".toList, DeliveryCount := 2 }) ∧
    (∀ caseTable : Char → Char,
      (Generate caseTable config.defaultConfig
        [recordEntry "A" "RecipeA", recordEntry "B" "RecipeA", recordEntry "B" "RecipeA"]).map
          (fun report => report.BusiestPostcode)
        = .ok { Postcode := "B".toList, DeliveryCount := 2 }) := by
  refine ⟨?_, fun _ => rfl, fun _ => rfl⟩
  intro caseTable cfg stream report h hne
  obtain ⟨hp, hd⟩ := Generate_busiest _ _ _ _ h
  have hps : postcodes stream ≠ [] := by
    simpa [postcodes] using hne
  obtain ⟨-, hmax, hfirst⟩ := busiest_invariant (postcodes stream)
  rw [← hp] at hmax hfirst
  have hd' : report.BusiestPostcode.DeliveryCount
      = (postcodes stream).count report.BusiestPostcode.Postcode := by rw [hd, ← hp]
  rw [← hd'] at hmax hfirst
  obtain ⟨k, hk, hk1, hk2⟩ := hfirst hps
  refine ⟨hmax, hd'.symm, ?_, k, hk, hk1, hk2⟩
  have hpos : 0 < (postcodes stream).count report.BusiestPostcode.Postcode := by
    obtain ⟨q, hq⟩ := List.exists_mem_of_ne_nil _ hps
    have h1 := List.count_pos_iff.2 hq
    have h2 := hmax q
    rw [hd'] at h2
    omega
  exact List.count_pos_iff.1 hpos

/-- C3 on the stream of postcodes A, B, B. -/
theorem stats.Generate_busiestPostcode_witness :
    Generate id config.defaultConfig
        [recordEntry "A" "RecipeA", recordEntry "B" "RecipeA", recordEntry "B" "RecipeA"]
      = .ok { UniqueRecipeCount := 1,
              CountPerRecipe := [{ Recipe := "RecipeA".toList, Count := 3 }],
              BusiestPostcode := { Postcode := "B".toList, DeliveryCount := 2 },
              CountPerPostcodeAndTime :=
                { Postcode := "10120".toList, From := "10AM".toList, To := "3PM".toList,
                  DeliveryCount := 0 },
              MatchByName := [] } ∧
    records [recordEntry "A" "RecipeA", recordEntry "B" "RecipeA", recordEntry "B" "RecipeA"]
      ≠ [] ∧
    (postcodes
      [recordEntry "A" "RecipeA", recordEntry "B" "RecipeA", recordEntry "B" "RecipeA"]).count
        "B".toList = 2 ∧
    "B".toList ∈ postcodes
      [recordEntry "A" "RecipeA", recordEntry "B" "RecipeA", recordEntry "B" "RecipeA"] :=
  have h := stats.Generate_busiestPostcode.1 id config.defaultConfig
    [recordEntry "A" "RecipeA", recordEntry "B" "RecipeA", recordEntry "B" "RecipeA"]
    _ (by decide : Generate id config.defaultConfig _ = .ok
            { UniqueRecipeCount := 1,
              CountPerRecipe := [{ Recipe := "RecipeA".toList, Count := 3 }],
              BusiestPostcode := { Postcode := "B".toList, DeliveryCount := 2 },
              CountPerPostcodeAndTime :=
                { Postcode := "10120".toList, From := "10AM".toList, To := "3PM".toList,
                  DeliveryCount := 0 },
              MatchByName := [] }) (by decide)
  ⟨by decide, by decide, h.2.1, h.2.2.1⟩

end

/-! ### Byte order, sorting and counting maps -/

namespace utf8

theorem encodeRune_append_inj (r r' : Nat) (x y : List Nat)
    (h : encodeRune r ++ x = encodeRune r' ++ y) : r = r' ∧ x = y := by
  unfold encodeRune at h
  split_ifs at h <;>
    simp only [List.cons_append, List.nil_append, List.cons.injEq] at h <;>
    first
    | (exfalso; omega)
    | (refine ⟨by omega, ?_⟩; simp only [h])

theorem encodeRune_ne_nil (r : Nat) : encodeRune r ≠ [] := by
  unfold encodeRune
  split_ifs <;> simp

end utf8

theorem char_eq_of_toNat_eq {c d : Char} (h : c.toNat = d.toNat) : c = d := by
  apply Char.eq_of_val_eq
  apply UInt32.eq_of_val_eq
  apply Fin.eq_of_val_eq
  exact h

theorem bytes_injective : ∀ (a b : Str), bytes a = bytes b → a = b := by
  intro a
  induction a with
  | nil =>
    intro b h
    cases b with
    | nil => rfl
    | cons d ds =>
      exfalso
      simp only [bytes] at h
      have := utf8.encodeRune_ne_nil d.toNat
      cases hd : utf8.encodeRune d.toNat with
      | nil => exact this hd
      | cons _ _ => rw [hd] at h; simp at h
  | cons c cs ih =>
    intro b h
    cases b with
    | nil =>
      exfalso
      simp only [bytes] at h
      have := utf8.encodeRune_ne_nil c.toNat
      cases hd : utf8.encodeRune c.toNat with
      | nil => exact this hd
      | cons _ _ => rw [hd] at h; simp at h
    | cons d ds =>
      simp only [bytes] at h
      obtain ⟨h1, h2⟩ := utf8.encodeRune_append_inj _ _ _ _ h
      rw [char_eq_of_toNat_eq h1, ih ds h2]

theorem strLE_total : IsTotal Str strLE := ⟨fun a b => le_total (bytes a) (bytes b)⟩

theorem strLE_trans : IsTrans Str strLE :=
  ⟨fun _ _ _ hab hbc => @le_trans (List Nat) _ _ _ _ hab hbc⟩

theorem strLT_of_strLE_of_ne (a b : Str) (h : strLE a b) (hne : a ≠ b) : strLT a b :=
  @lt_of_le_of_ne (List Nat) _ _ _ h (fun e => hne (bytes_injective a b e))

namespace slices

theorem sort_perm (keys : List Str) : (sort keys).Perm keys :=
  List.perm_insertionSort strLE keys

theorem sort_sorted (keys : List Str) : (sort keys).Sorted strLE :=
  @List.sorted_insertionSort Str strLE _ strLE_total strLE_trans keys

theorem sort_strict (keys : List Str) (h : keys.Nodup) : (sort keys).Sorted strLT := by
  have hs := sort_sorted keys
  have hn : (sort keys).Nodup := (sort_perm keys).nodup_iff.2 h
  unfold List.Sorted at hs ⊢
  exact (hs.and hn).imp (fun {a b} hab => strLT_of_strLE_of_ne a b hab.1 hab.2)

theorem mem_sort (keys : List Str) (k : Str) : k ∈ sort keys ↔ k ∈ keys :=
  (sort_perm keys).mem_iff

theorem length_sort (keys : List Str) : (sort keys).length = keys.length :=
  (sort_perm keys).length_eq

end slices

namespace GoMap

theorem keys_nil {V : Type} : keys ([] : GoMap V) = [] := rfl

theorem keys_cons {V : Type} (m : GoMap V) (a : Str) (b : V) :
    keys ((a, b) :: m) = a :: keys m := rfl

theorem mem_keys_set {V : Type} (m : GoMap V) (k k' : Str) (v : V) :
    k' ∈ keys (set m k v) ↔ k' = k ∨ k' ∈ keys m := by
  induction m with
  | nil =>
    show k' ∈ keys [(k, v)] ↔ _
    rw [keys_cons, keys_nil, List.mem_singleton]
    simp only [List.not_mem_nil, or_false]
  | cons a m ih =>
    obtain ⟨a1, a2⟩ := a
    unfold set
    by_cases h1 : a1 = k
    · subst h1
      simp only [if_true, keys_cons, List.mem_cons]
      tauto
    · simp only [h1, if_false, keys_cons, List.mem_cons, ih]
      tauto

theorem nodup_keys_set {V : Type} (m : GoMap V) (k : Str) (v : V) (h : (keys m).Nodup) :
    (keys (set m k v)).Nodup := by
  induction m with
  | nil =>
    show (keys [(k, v)]).Nodup
    rw [keys_cons, keys_nil]
    exact List.nodup_singleton k
  | cons a m ih =>
    obtain ⟨a1, a2⟩ := a
    rw [keys_cons, List.nodup_cons] at h
    unfold set
    by_cases h1 : a1 = k
    · subst h1
      simp only [if_true, keys_cons, List.nodup_cons]
      exact h
    · simp only [h1, if_false, keys_cons, List.nodup_cons]
      refine ⟨?_, ih h.2⟩
      rw [mem_keys_set]
      rintro (e | e)
      · exact h1 e
      · exact h.1 e

theorem get_tally (names : List Str) : ∀ (m : GoMap Nat) (k : Str),
    get 0 (tally names m) k = get 0 m k + names.count k := by
  induction names with
  | nil => intro m k; simp [tally]
  | cons n names ih =>
    intro m k
    have e : tally (n :: names) m = tally names (incr m n) := rfl
    rw [e, ih, get_incr, List.count_cons]
    by_cases h : k = n
    · subst h; simp; omega
    · have : (n == k) = false := by simpa using fun e => h e.symm
      simp [h, this]

theorem mem_keys_tally (names : List Str) : ∀ (m : GoMap Nat) (k : Str),
    k ∈ keys (tally names m) ↔ k ∈ keys m ∨ k ∈ names := by
  induction names with
  | nil => intro m k; simp [tally]
  | cons n names ih =>
    intro m k
    have e : tally (n :: names) m = tally names (incr m n) := rfl
    rw [e, ih, incr, mem_keys_set, List.mem_cons]
    tauto

theorem nodup_keys_tally (names : List Str) : ∀ (m : GoMap Nat), (keys m).Nodup →
    (keys (tally names m)).Nodup := by
  induction names with
  | nil => intro m h; simpa [tally] using h
  | cons n names ih =>
    intro m h
    have e : tally (n :: names) m = tally names (incr m n) := rfl
    rw [e]
    exact ih _ (nodup_keys_set _ _ _ h)

end GoMap

/-! ### The recipe counts of the report -/

namespace stats

theorem recipeNames_cons_ok (entry : parser.Entry) (rest : List parser.Entry)
    (h : entry.Error = none) :
    recipeNames (entry :: rest) = entry.Recipe.Recipe :: recipeNames rest := by
  simp [recipeNames, records_cons_ok _ _ h]

theorem recipeNames_cons_error (entry : parser.Entry) (rest : List parser.Entry)
    (h : entry.Error ≠ none) : recipeNames (entry :: rest) = recipeNames rest := by
  simp [recipeNames, records_cons_error _ _ h]

theorem loop_recipeCounts (caseTable : Char → Char) (cfg : config.Config) (words : GoMap Bool)
    (stream : List parser.Entry) : ∀ (v v' : Vars),
    loop caseTable cfg words stream v = .ok v' →
    v'.recipeCounts = GoMap.tally (recipeNames stream) v.recipeCounts := by
  induction stream with
  | nil =>
    intro v v' h
    simp only [loop, Except.ok.injEq] at h
    subst h
    rfl
  | cons entry rest ih =>
    intro v v' h
    unfold loop at h
    cases hb : loopBody caseTable cfg words v entry with
    | error err => rw [hb] at h; simp at h
    | ok v1 =>
      rw [hb] at h
      simp only at h
      rw [ih v1 v' h]
      rcases loopBody_ok _ _ _ _ _ _ hb with ⟨he, hv⟩ | ⟨he, h1, _⟩
      · subst hv
        rw [recipeNames_cons_error _ _ he]
      · rw [recipeNames_cons_ok _ _ he, h1]
        rfl

theorem loop_recipesContainingWords (caseTable : Char → Char) (cfg : config.Config)
    (words : GoMap Bool) (stream : List parser.Entry) : ∀ (v v' : Vars),
    loop caseTable cfg words stream v = .ok v' →
    v'.recipesContainingWords =
      GoMap.tally ((recipeNames stream).filter fun name => containsWords caseTable name words)
        v.recipesContainingWords := by
  induction stream with
  | nil =>
    intro v v' h
    simp only [loop, Except.ok.injEq] at h
    subst h
    rfl
  | cons entry rest ih =>
    intro v v' h
    unfold loop at h
    cases hb : loopBody caseTable cfg words v entry with
    | error err => rw [hb] at h; simp at h
    | ok v1 =>
      rw [hb] at h
      simp only at h
      rw [ih v1 v' h]
      rcases loopBody_ok _ _ _ _ _ _ hb with ⟨he, hv⟩ | ⟨he, _, _, _, h4, _⟩
      · subst hv
        rw [recipeNames_cons_error _ _ he]
      · rw [recipeNames_cons_ok _ _ he, h4]
        by_cases hc : containsWords caseTable entry.Recipe.Recipe words = true
        · simp only [hc, if_true, List.filter_cons_of_pos]
          rfl
        · rw [List.filter_cons]
          simp only [hc, if_false, Bool.false_eq_true]

theorem loop_specific (caseTable : Char → Char) (cfg : config.Config)
    (words : GoMap Bool) (stream : List parser.Entry) : ∀ (v v' : Vars),
    loop caseTable cfg words stream v = .ok v' →
    v'.specificPostCodeDeliveries =
      v.specificPostCodeDeliveries + ((records stream).filter (countsForWindow cfg)).length := by
  induction stream with
  | nil =>
    intro v v' h
    simp only [loop, Except.ok.injEq] at h
    subst h
    rfl
  | cons entry rest ih =>
    intro v v' h
    unfold loop at h
    cases hb : loopBody caseTable cfg words v entry with
    | error err => rw [hb] at h; simp at h
    | ok v1 =>
      rw [hb] at h
      simp only at h
      rw [ih v1 v' h]
      rcases loopBody_ok _ _ _ _ _ _ hb with ⟨he, hv⟩ | ⟨he, _, _, _, _, h5, _⟩
      · subst hv
        rw [records_cons_error _ _ he]
      · rw [records_cons_ok _ _ he, h5]
        by_cases hc : entry.Recipe.Postcode = cfg.Postcode ∧
            isDeliveryTimeInRange entry.Recipe.Delivery cfg.FromTime cfg.ToTime = .ok true
        · have : countsForWindow cfg entry.Recipe = true := by
            simp [countsForWindow, hc.1, hc.2]
          rw [List.filter_cons_of_pos this]
          simp only [hc, and_self, if_true, List.length_cons]
          omega
        · have : ¬ countsForWindow cfg entry.Recipe = true := by
            simpa [countsForWindow] using hc
          rw [List.filter_cons_of_neg this]
          simp only [hc, if_false]
          omega

theorem Generate_recipeCounts (caseTable : Char → Char) (cfg : config.Config)
    (stream : List parser.Entry) (report : ResponseData)
    (h : Generate caseTable cfg stream = .ok report) :
    report.UniqueRecipeCount = (GoMap.tally (recipeNames stream) []).length ∧
    report.CountPerRecipe =
      uniqueRecipeCount (sortKeys (GoMap.tally (recipeNames stream) []))
        (GoMap.tally (recipeNames stream) []) := by
  obtain ⟨v, hl, rfl⟩ := Generate_ok _ _ _ _ h
  have := loop_recipeCounts _ _ _ _ _ _ hl
  simp only [initVars] at this
  simp only [this, and_self]

theorem Generate_matchByName (caseTable : Char → Char) (cfg : config.Config)
    (stream : List parser.Entry) (report : ResponseData)
    (h : Generate caseTable cfg stream = .ok report) :
    report.MatchByName =
      sortKeys (GoMap.tally ((recipeNames stream).filter fun name =>
        containsWords caseTable name (wordsMap caseTable cfg.Words)) []) := by
  obtain ⟨v, hl, rfl⟩ := Generate_ok _ _ _ _ h
  have := loop_recipesContainingWords _ _ _ _ _ _ hl
  simp only [initVars] at this
  simp only [this]

theorem Generate_specific (caseTable : Char → Char) (cfg : config.Config)
    (stream : List parser.Entry) (report : ResponseData)
    (h : Generate caseTable cfg stream = .ok report) :
    report.CountPerPostcodeAndTime.DeliveryCount
      = ((records stream).filter (countsForWindow cfg)).length := by
  obtain ⟨v, hl, rfl⟩ := Generate_ok _ _ _ _ h
  have := loop_specific _ _ _ _ _ _ hl
  simp only [initVars] at this
  simp only [this]
  omega

theorem keys_length {V : Type} (m : GoMap V) : (GoMap.keys m).length = m.length := by
  simp [GoMap.keys]

theorem sortKeys_strict (names : List Str) :
    (sortKeys (GoMap.tally names [])).Sorted strLT :=
  slices.sort_strict _ (GoMap.nodup_keys_tally names [] List.nodup_nil)

theorem mem_sortKeys (names : List Str) (k : Str) :
    k ∈ sortKeys (GoMap.tally names []) ↔ k ∈ names := by
  unfold sortKeys
  rw [slices.mem_sort, GoMap.mem_keys_tally]
  simp [GoMap.keys_nil]

theorem uniqueRecipeCount_names (sortedKeys : List Str) (recipeCounts : GoMap Nat) :
    (uniqueRecipeCount sortedKeys recipeCounts).map (fun rc => rc.Recipe) = sortedKeys := by
  simp [uniqueRecipeCount, Function.comp_def]

end stats

section
open stats

/-- C4: when `Generate` succeeds, `unique_recipe_count` is the length of `count_per_recipe`,
whose recipe names are strictly ascending in the byte-wise order of strings, hence without
duplicates. -/
theorem stats.Generate_countPerRecipe_sorted (caseTable : Char → Char) (cfg : config.Config)
    (stream : List parser.Entry) (report : ResponseData)
    (h : Generate caseTable cfg stream = .ok report) :
    report.UniqueRecipeCount = report.CountPerRecipe.length ∧
    (report.CountPerRecipe.map fun rc => rc.Recipe).Sorted strLT ∧
    (report.CountPerRecipe.map fun rc => rc.Recipe).Nodup := by
  obtain ⟨h1, h2⟩ := Generate_recipeCounts _ _ _ _ h
  have hs : (report.CountPerRecipe.map fun rc => rc.Recipe).Sorted strLT := by
    rw [h2, uniqueRecipeCount_names]
    exact sortKeys_strict _
  refine ⟨?_, hs, ?_⟩
  · rw [h1, h2]
    simp only [uniqueRecipeCount, List.length_map, sortKeys, slices.length_sort]
    exact (keys_length _).symm
  · rw [h2, uniqueRecipeCount_names]
    exact (slices.sort_perm _).nodup_iff.2
      (GoMap.nodup_keys_tally _ [] List.nodup_nil)

/-- C5: when `Generate` succeeds, the pair `(name, c)` is in `count_per_recipe` exactly when
`c ≥ 1` and `c` entries without error of the stream have the recipe name `name`. -/
theorem stats.Generate_countPerRecipe_exact (caseTable : Char → Char) (cfg : config.Config)
    (stream : List parser.Entry) (report : ResponseData)
    (h : Generate caseTable cfg stream = .ok report) (name : Str) (c : Nat) :
    ({ Recipe := name, Count := c } : RecipeCount) ∈ report.CountPerRecipe ↔
      1 ≤ c ∧ c = (recipeNames stream).count name := by
  obtain ⟨-, h2⟩ := Generate_recipeCounts _ _ _ _ h
  rw [h2]
  simp only [uniqueRecipeCount, List.mem_map, RecipeCount.mk.injEq]
  constructor
  · rintro ⟨k, hk, rfl, rfl⟩
    rw [mem_sortKeys] at hk
    rw [GoMap.get_tally, GoMap.get_nil]
    have := List.count_pos_iff.2 hk
    omega
  · rintro ⟨h1, rfl⟩
    refine ⟨name, ?_, rfl, ?_⟩
    · rw [mem_sortKeys]
      exact List.count_pos_iff.1 h1
    · rw [GoMap.get_tally, GoMap.get_nil]
      omega

end

/-! ### Deliveries in the configured window -/

namespace strings

theorem Index_some (sep : Str) (s : Str) : ∀ (i : Nat), Index s sep = some i →
    s = s.take i ++ sep ++ s.drop (i + sep.length) := by
  induction s with
  | nil =>
    intro i h
    unfold Index at h
    split at h
    · next hs => subst hs; simp
    · simp at h
  | cons c cs ih =>
    intro i h
    unfold Index at h
    split at h
    · next hp =>
      simp only [Option.some.injEq] at h
      subst h
      obtain ⟨t, ht⟩ := List.isPrefixOf_iff_prefix.1 hp
      rw [← ht]
      simp
    · cases hi : Index cs sep with
      | none => rw [hi] at h; simp at h
      | some j =>
        rw [hi] at h
        simp only [Option.some.injEq] at h
        subst h
        have := ih j hi
        rw [Nat.add_right_comm, List.take_succ_cons, List.drop_succ_cons, List.cons_append,
          List.cons_append, ← this]

theorem Index_single_not_mem (c : Char) (s : Str) : ∀ (i : Nat), Index s [c] = some i →
    c ∉ s.take i := by
  induction s with
  | nil => intro i _; simp
  | cons d ds ih =>
    intro i h
    unfold Index at h
    split at h
    · simp only [Option.some.injEq] at h
      subst h
      simp
    · next hp =>
      cases hi : Index ds [c] with
      | none => rw [hi] at h; simp at h
      | some j =>
        rw [hi] at h
        simp only [Option.some.injEq] at h
        subst h
        have hcd : c ≠ d := by
          rintro rfl
          apply hp
          simp [List.isPrefixOf]
        rw [List.take_succ_cons, List.mem_cons]
        rintro (e | e)
        · exact hcd e
        · exact ih j hi e

theorem SplitN_two (s sep a b : Str) (h : SplitN s sep 2 = [a, b]) :
    ∃ i, Index s sep = some i ∧ a = s.take i ∧ b = s.drop (i + sep.length) := by
  unfold SplitN at h
  cases hi : Index s sep with
  | none => rw [hi] at h; simp at h
  | some i =>
    rw [hi] at h
    simp only [SplitN, List.cons.injEq, and_true] at h
    exact ⟨i, rfl, h.1.symm, h.2.symm⟩

end strings

namespace stats

theorem isDeliveryTimeInRange_true_iff (delivery fromHour toHour : Str) :
    isDeliveryTimeInRange delivery fromHour toHour = .ok true ↔
      Encloses delivery fromHour toHour := by
  constructor
  · intro h
    unfold isDeliveryTimeInRange at h
    cases hf : parseHour fromHour with
    | error err => rw [hf] at h; simp at h
    | ok f =>
    cases ht : parseHour toHour with
    | error err => rw [hf, ht] at h; simp at h
    | ok t =>
    rw [hf, ht] at h
    simp only at h
    split at h
    · next day rest h1 =>
      split at h
      · next start stop h2 =>
        cases hs : parseHour start with
        | error err => rw [hs] at h; simp at h
        | ok ds =>
        cases he : parseHour stop with
        | error err => rw [hs, he] at h; simp at h
        | ok de =>
        rw [hs, he] at h
        simp only at h
        split at h
        · next hc =>
          obtain ⟨i, hi, rfl, rfl⟩ := strings.SplitN_two _ _ _ _ h1
          obtain ⟨j, hj, rfl, rfl⟩ := strings.SplitN_two _ _ _ _ h2
          refine ⟨_, _, _, ds, de, f, t, ?_, strings.Index_single_not_mem _ _ _ hi, hs, he,
            hf, ht, hc.1, hc.2⟩
          have e1 := strings.Index_some _ _ _ hi
          have e2 := strings.Index_some _ _ _ hj
          refine e1.trans ?_
          conv_lhs => rw [e2]
          simp only [List.append_assoc]
        · simp at h
      · simp at h
    · simp at h
  · rintro ⟨day, start, stop, ds, de, f, t, rfl, hday, hs, he, hf, ht, h1, h2⟩
    rw [isDeliveryTimeInRange_eq day start stop fromHour toHour ds de f t hday hs he hf ht]
    simp [h1, h2]

end stats

section
open stats

/-- C6: when `Generate` succeeds, `count_per_postcode_and_time.delivery_count` is the number
of entries without error that count for the window, and a record counts for the window exactly
when its postcode is the configured one and its delivery window satisfies the enclosure test
(`deliveryStart <= fromHour` and `toHour < deliveryEnd`) against the configured hours. -/
theorem stats.Generate_countPerPostcodeAndTime (caseTable : Char → Char) (cfg : config.Config)
    (stream : List parser.Entry) (report : ResponseData)
    (h : Generate caseTable cfg stream = .ok report) :
    report.CountPerPostcodeAndTime.DeliveryCount
      = ((records stream).filter (countsForWindow cfg)).length ∧
    ∀ recipe : parser.Recipe, countsForWindow cfg recipe = true ↔
      recipe.Postcode = cfg.Postcode ∧ Encloses recipe.Delivery cfg.FromTime cfg.ToTime := by
  refine ⟨Generate_specific _ _ _ _ h, fun recipe => ?_⟩
  simp only [countsForWindow, Bool.and_eq_true, decide_eq_true_eq,
    isDeliveryTimeInRange_true_iff]

end

/-! ### Keyword matching -/

namespace strings

theorem getLast?_cons_of_ne_nil (c : Char) (pre : Str) (h : pre ≠ []) :
    (c :: pre).getLast? = pre.getLast? := by
  cases pre with
  | nil => exact absurd rfl h
  | cons e pre => rw [List.getLast?_cons_cons]

theorem fieldsLoop_cons (c : Char) (cs cur : Str) :
    fieldsLoop (c :: cs) cur =
      if unicode.IsSpace c then
        if cur = [] then fieldsLoop cs [] else cur :: fieldsLoop cs []
      else fieldsLoop cs (cur ++ [c]) := by
  rw [fieldsLoop]

theorem fieldsLoop_sound (w : Str) (s : Str) : ∀ cur : Str,
    (∀ c ∈ cur, unicode.IsSpace c = false) → w ∈ fieldsLoop s cur →
    (∃ a post : Str, w = cur ++ a ∧ w ≠ [] ∧ s = a ++ post ∧
        (∀ c ∈ a, unicode.IsSpace c = false) ∧
        (∀ c, post.head? = some c → unicode.IsSpace c = true)) ∨
    (∃ pre post : Str, s = pre ++ w ++ post ∧ w ≠ [] ∧
        (∀ c ∈ w, unicode.IsSpace c = false) ∧ pre ≠ [] ∧
        (∀ c, pre.getLast? = some c → unicode.IsSpace c = true) ∧
        (∀ c, post.head? = some c → unicode.IsSpace c = true)) := by
  induction s with
  | nil =>
    intro cur _ hw
    unfold fieldsLoop at hw
    split at hw
    · simp at hw
    · next hne =>
      rw [List.mem_singleton] at hw
      subst hw
      exact Or.inl ⟨[], [], by simp, hne, by simp, by simp, by simp⟩
  | cons c cs ih =>
    intro cur hcur hw
    unfold fieldsLoop at hw
    by_cases hsp : unicode.IsSpace c = true
    · simp only [hsp, if_true] at hw
      have later : w ∈ fieldsLoop cs [] →
          ∃ pre post : Str, c :: cs = pre ++ w ++ post ∧ w ≠ [] ∧
            (∀ c ∈ w, unicode.IsSpace c = false) ∧ pre ≠ [] ∧
            (∀ c, pre.getLast? = some c → unicode.IsSpace c = true) ∧
            (∀ c, post.head? = some c → unicode.IsSpace c = true) := by
        intro hw'
        rcases ih [] (by simp) hw' with ⟨a, post, h1, h2, h3, h4, h5⟩ | ⟨pre, post, h1, h2, h3, h4, h5, h6⟩
        · simp only [List.nil_append] at h1
          subst h1
          refine ⟨[c], post, by simp [h3], h2, h4, by simp, ?_, h5⟩
          intro d hd
          simp only [List.getLast?_singleton, Option.some.injEq] at hd
          subst hd
          exact hsp
        · refine ⟨c :: pre, post, by simp [h1], h2, h3, by simp, ?_, h6⟩
          intro d hd
          rw [getLast?_cons_of_ne_nil c pre h4] at hd
          exact h5 d hd
      split at hw
      · exact Or.inr (later hw)
      · next hne =>
        rcases List.mem_cons.1 hw with e | e
        · subst e
          refine Or.inl ⟨[], c :: cs, by simp, hne, by simp, by simp, ?_⟩
          intro d hd
          simp only [List.head?_cons, Option.some.injEq] at hd
          subst hd
          exact hsp
        · exact Or.inr (later e)
    · simp only [hsp, if_false, Bool.false_eq_true] at hw
      have hc : unicode.IsSpace c = false := by simpa using hsp
      have hcur' : ∀ d ∈ cur ++ [c], unicode.IsSpace d = false := by
        intro d hd
        rcases List.mem_append.1 hd with e | e
        · exact hcur d e
        · rw [List.mem_singleton] at e; subst e; exact hc
      rcases ih (cur ++ [c]) hcur' hw with ⟨a, post, h1, h2, h3, h4, h5⟩ | ⟨pre, post, h1, h2, h3, h4, h5, h6⟩
      · refine Or.inl ⟨c :: a, post, by simp [h1], h2, by simp [h3], ?_, h5⟩
        intro d hd
        rcases List.mem_cons.1 hd with e | e
        · subst e; exact hc
        · exact h4 d e
      · refine Or.inr ⟨c :: pre, post, by simp [h1], h2, h3, by simp, ?_, h6⟩
        intro d hd
        rw [getLast?_cons_of_ne_nil c pre h4] at hd
        exact h5 d hd

theorem fieldsLoop_skip (w x : Str) (hw : w ∈ fieldsLoop x []) (pre : Str) : ∀ cur : Str,
    (∀ c, pre.getLast? = some c → unicode.IsSpace c = true) → (pre = [] → cur = []) →
    w ∈ fieldsLoop (pre ++ x) cur := by
  induction pre with
  | nil =>
    intro cur _ h
    rw [h rfl]
    exact hw
  | cons c pre ih =>
    intro cur hlast _
    have hlast' : ∀ d, pre.getLast? = some d → unicode.IsSpace d = true := by
      intro d hd
      apply hlast d
      cases pre with
      | nil => simp at hd
      | cons e pre => rw [List.getLast?_cons_cons]; exact hd
    rw [List.cons_append]
    unfold fieldsLoop
    by_cases hsp : unicode.IsSpace c = true
    · simp only [hsp, if_true]
      have := ih [] hlast' (fun _ => rfl)
      split
      · exact this
      · exact List.mem_cons_of_mem _ this
    · simp only [hsp, if_false, Bool.false_eq_true]
      apply ih _ hlast'
      intro hpre
      subst hpre
      exact absurd (hlast c (by simp)) hsp

theorem fieldsLoop_word (w post : Str) (hw : ∀ c ∈ w, unicode.IsSpace c = false) :
    ∀ cur : Str, fieldsLoop (w ++ post) cur = fieldsLoop post (cur ++ w) := by
  induction w with
  | nil => intro cur; simp
  | cons c w ih =>
    intro cur
    have hc : unicode.IsSpace c = false := hw c (List.mem_cons_self _ _)
    rw [List.cons_append, fieldsLoop_cons]
    simp only [hc, Bool.false_eq_true, if_false]
    rw [ih (fun d hd => hw d (List.mem_cons_of_mem _ hd))]
    simp

theorem fieldsLoop_end (cur post : Str) (hcur : cur ≠ [])
    (hpost : ∀ c, post.head? = some c → unicode.IsSpace c = true) :
    cur ∈ fieldsLoop post cur := by
  cases post with
  | nil => simp [fieldsLoop, hcur]
  | cons c post =>
    have := hpost c (by simp)
    unfold fieldsLoop
    simp [this, hcur]

/-- `strings.Fields` returns exactly the whitespace-separated words of the text. -/
theorem mem_Fields (w s : Str) : w ∈ Fields s ↔ IsWordOf w s := by
  constructor
  · intro h
    rcases fieldsLoop_sound w s [] (by simp) h with ⟨a, post, h1, h2, h3, h4, h5⟩ | ⟨pre, post, h1, h2, h3, _, h5, h6⟩
    · simp only [List.nil_append] at h1
      subst h1
      exact ⟨h2, h4, [], post, by simp [h3], by simp, h5⟩
    · exact ⟨h2, h3, pre, post, h1, h5, h6⟩
  · rintro ⟨h1, h2, pre, post, rfl, h4, h5⟩
    unfold Fields
    rw [List.append_assoc]
    apply fieldsLoop_skip _ _ _ _ _ h4 (fun _ => rfl)
    rw [fieldsLoop_word w post h2, List.nil_append]
    exact fieldsLoop_end w post h1 h5

end strings

namespace GoMap

theorem mem_keys_of_get_true (m : GoMap Bool) (k : Str) (h : get false m k = true) :
    k ∈ keys m := by
  induction m with
  | nil => simp [get_nil] at h
  | cons a m ih =>
    obtain ⟨a1, a2⟩ := a
    rw [get_cons] at h
    rw [keys_cons, List.mem_cons]
    by_cases hk : k = a1
    · exact Or.inl hk
    · simp only [hk, if_false] at h
      exact Or.inr (ih h)

end GoMap

namespace stats

theorem containsWords_iff_word (caseTable : Char → Char) (recipe : Str) (words : GoMap Bool) :
    containsWords caseTable recipe words = true ↔
      ∃ w, strings.IsWordOf w recipe ∧
        GoMap.get false words (strings.ToLower caseTable w) = true := by
  unfold containsWords
  rw [List.any_eq_true]
  constructor
  · rintro ⟨w, hw, h⟩
    exact ⟨w, (strings.mem_Fields w recipe).1 hw, h⟩
  · rintro ⟨w, hw, h⟩
    exact ⟨w, (strings.mem_Fields w recipe).2 hw, h⟩

end stats

section
open stats

/-- C7: keyword matching is case-insensitive and whole-word.  For a keyword set whose members
are lowercase, `containsWords` answers true exactly when some whitespace-separated word of the
item name, lowercased, is mapped to true in the set, that is, when some word equals, ignoring
case, a keyword mapped to true.  `Korean-Style Chicken Potato Thighs` matches `potato`;
`Potatoey Stew` does not; `Grilled Cheese Jumble` matches neither `potato` nor `mushroom`. -/
theorem stats.containsWords_wholeWord :
    (∀ (caseTable : Char → Char) (recipe : Str) (words : GoMap Bool),
      (∀ k ∈ GoMap.keys words, strings.ToLower caseTable k = k) →
      (containsWords caseTable recipe words = true ↔
        ∃ w, strings.IsWordOf w recipe ∧
          GoMap.get false words (strings.ToLower caseTable w) = true) ∧
      (containsWords caseTable recipe words = true ↔
        ∃ w, strings.IsWordOf w recipe ∧
          ∃ k, GoMap.get false words k = true ∧
            strings.ToLower caseTable w = strings.ToLower caseTable k)) ∧
    (∀ caseTable : Char → Char,
      containsWords caseTable "Korean-Style Chicken Potato Thighs".toList
        [("potato".toList, true)] = true) ∧
    (∀ caseTable : Char → Char,
      containsWords caseTable "Potatoey Stew".toList [("potato".toList, true)] = false) ∧
    (∀ caseTable : Char → Char,
      containsWords caseTable "Grilled Cheese Jumble".toList
        [("potato".toList, true), ("mushroom".toList, true)] = false) := by
  refine ⟨?_, fun _ => rfl, fun _ => rfl, fun _ => rfl⟩
  intro caseTable recipe words hlow
  refine ⟨containsWords_iff_word caseTable recipe words, ?_⟩
  rw [containsWords_iff_word]
  constructor
  · rintro ⟨w, hw, h⟩
    refine ⟨w, hw, strings.ToLower caseTable w, h, ?_⟩
    exact (hlow _ (GoMap.mem_keys_of_get_true _ _ h)).symm
  · rintro ⟨w, hw, k, hk, h⟩
    refine ⟨w, hw, ?_⟩
    rw [h, hlow _ (GoMap.mem_keys_of_get_true _ _ hk)]
    exact hk

/-- C7 on the first recipe of the test suite and its keyword set. -/
theorem stats.containsWords_wholeWord_witness :
    (∀ k ∈ GoMap.keys [("potato".toList, true), ("mushroom".toList, true),
        ("veggie".toList, false)], strings.ToLower id k = k) ∧
    (containsWords id "Hot Honey Barbecue Mushroom Chicken Legs".toList
        [("potato".toList, true), ("mushroom".toList, true), ("veggie".toList, false)] = true ↔
      ∃ w, strings.IsWordOf w "Hot Honey Barbecue Mushroom Chicken Legs".toList ∧
        GoMap.get false [("potato".toList, true), ("mushroom".toList, true),
          ("veggie".toList, false)] (strings.ToLower id w) = true) :=
  ⟨by decide,
    (stats.containsWords_wholeWord.1 id "Hot Honey Barbecue Mushroom Chicken Legs".toList
      [("potato".toList, true), ("mushroom".toList, true), ("veggie".toList, false)]
      (by decide)).1⟩

end

/-! ### The matched recipe names of the report -/

namespace stats

theorem get_wordsMap_fold (caseTable : Char → Char) (words : List Str) :
    ∀ (m : GoMap Bool) (x : Str),
    GoMap.get false
        (words.foldl (fun m word => GoMap.set m (strings.ToLower caseTable word) true) m) x
      = true ↔
    GoMap.get false m x = true ∨ ∃ k ∈ words, x = strings.ToLower caseTable k := by
  induction words with
  | nil => intro m x; simp
  | cons word words ih =>
    intro m x
    rw [List.foldl_cons, ih, GoMap.get_set]
    constructor
    · rintro (h | ⟨k, hk, hx⟩)
      · by_cases he : x = strings.ToLower caseTable word
        · exact Or.inr ⟨word, List.mem_cons_self _ _, he⟩
        · simp only [he, if_false] at h
          exact Or.inl h
      · exact Or.inr ⟨k, List.mem_cons_of_mem _ hk, hx⟩
    · rintro (h | ⟨k, hk, hx⟩)
      · by_cases he : x = strings.ToLower caseTable word
        · simp [he]
        · simp only [he, if_false]
          exact Or.inl h
      · rcases List.mem_cons.1 hk with e | e
        · subst e
          simp [hx]
        · exact Or.inr ⟨k, e, hx⟩

theorem get_wordsMap (caseTable : Char → Char) (words : List Str) (x : Str) :
    GoMap.get false (wordsMap caseTable words) x = true ↔
      ∃ k ∈ words, x = strings.ToLower caseTable k := by
  unfold wordsMap
  rw [get_wordsMap_fold]
  simp [GoMap.get_nil]

end stats

namespace unicode

theorem ToLower_eq_caseless (caseTable : Char → Char) (r : Char) :
    ToLower caseTable r = caseless caseTable r := by
  by_cases h : r.toNat ≤ 127
  · have hr : r = Char.ofNat r.toNat := (Char.ofNat_toNat r).symm
    generalize r.toNat = n at h hr
    subst hr
    interval_cases n <;> rfl
  · have hl : asciiLetters.lookup r = none := by
      rw [List.lookup_eq_none_iff]
      intro p hp
      have hb : ∀ q ∈ asciiLetters, q.1.toNat ≤ 90 := by decide
      have := hb p hp
      have hne : r ≠ p.1 := by
        intro e
        rw [e] at h
        omega
      simpa using hne
    have h2 : ¬ r.toNat < 128 := by omega
    simp [ToLower, caseless, hl, h, h2]

end unicode

namespace strings

theorem ToLower_eq_iff (caseTable : Char → Char) (a : Str) : ∀ b : Str,
    ToLower caseTable a = ToLower caseTable b ↔ EqualIgnoringCase caseTable a b := by
  induction a with
  | nil =>
    intro b
    cases b with
    | nil => simp [ToLower, EqualIgnoringCase]
    | cons y b => simp [ToLower, EqualIgnoringCase]
  | cons x a ih =>
    intro b
    cases b with
    | nil => simp [ToLower, EqualIgnoringCase]
    | cons y b =>
      have := ih b
      simp only [ToLower, EqualIgnoringCase] at this ⊢
      simp only [List.map_cons, List.cons.injEq, List.length_cons, List.zip_cons_cons,
        List.mem_cons, forall_eq_or_imp, Nat.add_right_cancel_iff, this,
        unicode.ToLower_eq_caseless]
      tauto

end strings

section
open stats

/-- C8: when `Generate` succeeds, whatever the letter case of the configured keywords,
`match_by_name` is strictly ascending in the byte-wise order of strings, without duplicates,
and holds exactly the recipe names of the entries without error that have a
whitespace-separated word equal, ignoring case, to a configured keyword: of the same length,
with the same letter at each position, capital or small. -/
theorem stats.Generate_matchByName_exact (caseTable : Char → Char) (cfg : config.Config)
    (stream : List parser.Entry) (report : ResponseData)
    (h : Generate caseTable cfg stream = .ok report) :
    report.MatchByName.Sorted strLT ∧ report.MatchByName.Nodup ∧
    ∀ name : Str, name ∈ report.MatchByName ↔
      name ∈ recipeNames stream ∧
      ∃ w, strings.IsWordOf w name ∧
        ∃ k ∈ cfg.Words, strings.EqualIgnoringCase caseTable w k := by
  have hm := Generate_matchByName _ _ _ _ h
  refine ⟨?_, ?_, fun name => ?_⟩
  · rw [hm]
    exact sortKeys_strict _
  · rw [hm]
    exact (slices.sort_perm _).nodup_iff.2 (GoMap.nodup_keys_tally _ [] List.nodup_nil)
  · rw [hm, mem_sortKeys, List.mem_filter, containsWords_iff_word]
    simp only [get_wordsMap, strings.ToLower_eq_iff]

end

/-! ### Regular expressions -/

namespace regexp.Regexp

theorem nullable_of_matches (r : Regexp) (w : Str) (h : Matches r w) :
    w = [] → nullable r = true := by
  induction h with
  | emptyMatch => intro _; rfl
  | charClass rs c _ => intro h; simp at h
  | concat a b x y _ _ iha ihb =>
    intro h
    obtain ⟨hx, hy⟩ := List.append_eq_nil.1 h
    simp [nullable, iha hx, ihb hy]
  | left a b x _ ih => intro h; simp [nullable, ih h]
  | right a b x _ ih => intro h; simp [nullable, ih h]
  | starNil a => intro _; rfl
  | starCons a x y _ _ _ _ => intro _; rfl

theorem matches_nil_of_nullable (r : Regexp) (h : nullable r = true) : Matches r [] := by
  induction r with
  | noMatch => simp [nullable] at h
  | emptyMatch => exact Matches.emptyMatch
  | charClass rs => simp [nullable] at h
  | concat a b iha ihb =>
    simp only [nullable, Bool.and_eq_true] at h
    exact Matches.concat a b [] [] (iha h.1) (ihb h.2)
  | alternate a b iha ihb =>
    simp only [nullable, Bool.or_eq_true] at h
    rcases h with h | h
    · exact Matches.left a b [] (iha h)
    · exact Matches.right a b [] (ihb h)
  | star a _ => exact Matches.starNil a

theorem matches_of_deriv (r : Regexp) (c : Char) : ∀ s : Str,
    Matches (deriv r c) s → Matches r (c :: s) := by
  induction r with
  | noMatch => intro s h; cases h
  | emptyMatch => intro s h; cases h
  | charClass rs =>
    intro s h
    unfold deriv at h
    split at h
    · next hc => cases h; exact Matches.charClass rs c hc
    · cases h
  | concat a b iha ihb =>
    intro s h
    unfold deriv at h
    split at h
    · next hn =>
      cases h with
      | left _ _ _ h1 =>
        cases h1 with
        | concat _ _ x y hx hy => exact Matches.concat a b (c :: x) y (iha x hx) hy
      | right _ _ _ h1 =>
        exact Matches.concat a b [] (c :: s) (matches_nil_of_nullable a hn) (ihb s h1)
    · cases h with
      | concat _ _ x y hx hy => exact Matches.concat a b (c :: x) y (iha x hx) hy
  | alternate a b iha ihb =>
    intro s h
    cases h with
    | left _ _ _ h1 => exact Matches.left a b _ (iha s h1)
    | right _ _ _ h1 => exact Matches.right a b _ (ihb s h1)
  | star a iha =>
    intro s h
    cases h with
    | concat _ _ x y hx hy => exact Matches.starCons a (c :: x) y (iha x hx) hy

theorem deriv_of_matches (r : Regexp) (w : Str) (h : Matches r w) : ∀ (c : Char) (s : Str),
    w = c :: s → Matches (deriv r c) s := by
  induction h with
  | emptyMatch => intro c s h; simp at h
  | charClass rs d hd =>
    intro c s h
    simp only [List.cons.injEq] at h
    obtain ⟨rfl, rfl⟩ := h
    simp only [deriv, hd, if_true]
    exact Matches.emptyMatch
  | concat a b x y hx hy iha ihb =>
    intro c s h
    cases x with
    | nil =>
      simp only [List.nil_append] at h
      have hn := nullable_of_matches a [] hx rfl
      simp only [deriv, hn, if_true]
      exact Matches.right _ _ _ (ihb c s h)
    | cons d x =>
      simp only [List.cons_append, List.cons.injEq] at h
      obtain ⟨rfl, rfl⟩ := h
      have := Matches.concat _ b _ y (iha d x rfl) hy
      unfold deriv
      split
      · exact Matches.left _ _ _ this
      · exact this
  | left a b x _ ih => intro c s h; exact Matches.left _ _ _ (ih c s h)
  | right a b x _ ih => intro c s h; exact Matches.right _ _ _ (ih c s h)
  | starNil a => intro c s h; simp at h
  | starCons a x y hx hy iha ihs =>
    intro c s h
    cases x with
    | nil =>
      simp only [List.nil_append] at h
      exact ihs c s h
    | cons d x =>
      simp only [List.cons_append, List.cons.injEq] at h
      obtain ⟨rfl, rfl⟩ := h
      exact Matches.concat _ _ _ y (iha d x rfl) hy

/-- The matcher decides the texts of the expression. -/
theorem matchString_iff (s : Str) : ∀ r : Regexp, matchString r s = true ↔ Matches r s := by
  induction s with
  | nil =>
    intro r
    exact ⟨matches_nil_of_nullable r, fun h => nullable_of_matches r [] h rfl⟩
  | cons c s ih =>
    intro r
    show matchString (deriv r c) s = true ↔ _
    rw [ih]
    exact ⟨matches_of_deriv r c s, fun h => deriv_of_matches r _ h c s rfl⟩

theorem matches_concat (a b : Regexp) (s : Str) :
    Matches (concat a b) s ↔ ∃ x y, s = x ++ y ∧ Matches a x ∧ Matches b y := by
  constructor
  · intro h
    cases h with
    | concat _ _ x y hx hy => exact ⟨x, y, rfl, hx, hy⟩
  · rintro ⟨x, y, rfl, hx, hy⟩
    exact Matches.concat a b x y hx hy

theorem matches_charClass (rs : List (Char × Char)) (s : Str) :
    Matches (charClass rs) s ↔ ∃ c, s = [c] ∧ inClass rs c = true := by
  constructor
  · intro h
    cases h with
    | charClass _ c hc => exact ⟨c, rfl, hc⟩
  · rintro ⟨c, rfl, hc⟩
    exact Matches.charClass rs c hc

theorem matches_star_charClass (rs : List (Char × Char)) (s : Str) :
    Matches (star (charClass rs)) s ↔ ∀ c ∈ s, inClass rs c = true := by
  constructor
  · intro h
    generalize hr : star (charClass rs) = r at h
    induction h with
    | emptyMatch => cases hr
    | charClass _ _ _ => cases hr
    | concat _ _ _ _ _ _ _ _ => cases hr
    | left _ _ _ _ _ => cases hr
    | right _ _ _ _ _ => cases hr
    | starNil a => intro c hc; simp at hc
    | starCons a x y hx _ _ ihs =>
      cases hr
      intro c hc
      rcases List.mem_append.1 hc with e | e
      · obtain ⟨d, rfl, hd⟩ := (matches_charClass rs x).1 hx
        rw [List.mem_singleton] at e
        subst e
        exact hd
      · exact ihs rfl c e
  · intro h
    induction s with
    | nil => exact Matches.starNil _
    | cons c s ih =>
      exact Matches.starCons _ [c] s
        (Matches.charClass rs c (h c (List.mem_cons_self _ _)))
        (ih (fun d hd => h d (List.mem_cons_of_mem _ hd)))

theorem matches_plus_charClass (rs : List (Char × Char)) (s : Str) :
    Matches (plus (charClass rs)) s ↔ s ≠ [] ∧ ∀ c ∈ s, inClass rs c = true := by
  unfold plus
  rw [matches_concat]
  constructor
  · rintro ⟨x, y, rfl, hx, hy⟩
    obtain ⟨c, rfl, hc⟩ := (matches_charClass rs x).1 hx
    refine ⟨by simp, fun d hd => ?_⟩
    rcases List.mem_append.1 hd with e | e
    · rw [List.mem_singleton] at e; subst e; exact hc
    · exact (matches_star_charClass rs y).1 hy d e
  · rintro ⟨hne, h⟩
    cases s with
    | nil => exact absurd rfl hne
    | cons c s =>
      exact ⟨[c], s, rfl, Matches.charClass rs c (h c (List.mem_cons_self _ _)),
        (matches_star_charClass rs s).2 (fun d hd => h d (List.mem_cons_of_mem _ hd))⟩

theorem matches_literal (c : Char) (s : Str) : Matches (literal c) s ↔ s = [c] := by
  unfold literal
  rw [matches_charClass]
  constructor
  · rintro ⟨d, rfl, hd⟩
    simp only [inClass, List.any_cons, List.any_nil, Bool.or_false, Bool.and_eq_true,
      decide_eq_true_eq] at hd
    rw [char_eq_of_toNat_eq (Nat.le_antisymm hd.2 hd.1)]
  · rintro rfl
    exact ⟨c, rfl, by simp [inClass]⟩

theorem matches_literals (l : Str) : ∀ s : Str, Matches (literals l) s ↔ s = l := by
  induction l with
  | nil =>
    intro s
    constructor
    · intro h; cases h; rfl
    · rintro rfl; exact Matches.emptyMatch
  | cons c l ih =>
    intro s
    unfold literals
    rw [matches_concat]
    constructor
    · rintro ⟨x, y, rfl, hx, hy⟩
      rw [(matches_literal c x).1 hx, (ih y).1 hy]
      rfl
    · rintro rfl
      exact ⟨[c], l, rfl, (matches_literal c [c]).2 rfl, (ih l).2 rfl⟩

end regexp.Regexp

/-! ### The delivery grammar -/

namespace parser

open regexp.Regexp

theorem toDigits_digit (n : Nat) (h1 : 49 ≤ n) (h2 : n ≤ 57) :
    Nat.toDigits 10 (n - 48) = [Char.ofNat n] := by
  interval_cases n <;> rfl

theorem toDigits_teens (n : Nat) (h1 : 48 ≤ n) (h2 : n ≤ 50) :
    Nat.toDigits 10 (n - 38) = ['1', Char.ofNat n] := by
  interval_cases n <;> rfl

theorem matches_hourGroup (h : Str) : Matches hourGroup h ↔ IsHour h := by
  constructor
  · intro hm
    unfold hourGroup at hm
    cases hm with
    | left _ _ _ h1 =>
      obtain ⟨c, rfl, hc⟩ := (matches_charClass _ _).1 h1
      simp only [inClass, List.any_cons, List.any_nil, Bool.or_false, Bool.and_eq_true,
        decide_eq_true_eq] at hc
      have h49 : 49 ≤ c.toNat := hc.1
      have h57 : c.toNat ≤ 57 := hc.2
      refine ⟨c.toNat - 48, by omega, by omega, ?_⟩
      rw [toDigits_digit _ h49 h57, Char.ofNat_toNat]
    | right _ _ _ h1 =>
      obtain ⟨x, y, rfl, hx, hy⟩ := (matches_concat _ _ _).1 h1
      rw [matches_literal] at hx
      subst hx
      obtain ⟨c, rfl, hc⟩ := (matches_charClass _ _).1 hy
      simp only [inClass, List.any_cons, List.any_nil, Bool.or_false, Bool.and_eq_true,
        decide_eq_true_eq] at hc
      have h48 : 48 ≤ c.toNat := hc.1
      have h50 : c.toNat ≤ 50 := hc.2
      refine ⟨c.toNat - 38, by omega, by omega, ?_⟩
      rw [toDigits_teens _ h48 h50, Char.ofNat_toNat]
      rfl
  · rintro ⟨n, h1, h12, rfl⟩
    rw [← matchString_iff]
    interval_cases n <;> rfl

theorem matches_wordPlus (s : Str) : Matches (plus wordClass) s ↔ IsWord s := by
  unfold wordClass IsWord
  exact matches_plus_charClass _ s

theorem matches_spaceStar (s : Str) : Matches (star spaceClass) s ↔ IsSpaces s := by
  unfold spaceClass IsSpaces
  exact matches_star_charClass _ s

theorem matches_spacePlus (s : Str) : Matches (plus spaceClass) s ↔ s ≠ [] ∧ IsSpaces s := by
  unfold spaceClass IsSpaces
  exact matches_plus_charClass _ s

/-- The pattern of `sanitizeRecipe` matches exactly the texts of the delivery grammar. -/
theorem matches_pattern (s : Str) : Matches pattern s ↔ DeliveryGrammar s := by
  unfold pattern DeliveryGrammar
  simp only [matches_concat, matches_wordPlus, matches_spacePlus, matches_spaceStar,
    matches_hourGroup, matches_literals, matches_literal]
  constructor
  · rintro ⟨word, _, rfl, hw, sp1, _, rfl, ⟨hne, hs1⟩, h1, _, rfl, hh1, sp2, _, rfl, hs2,
      _, _, rfl, rfl, sp3, _, rfl, hs3, _, _, rfl, rfl, sp4, _, rfl, hs4, h2, _, rfl, hh2,
      sp5, _, rfl, hs5, rfl⟩
    exact ⟨word, sp1, h1, sp2, sp3, sp4, h2, sp5, hw, hne, hs1, hh1, hs2, hs3, hs4, hh2, hs5,
      by simp only [List.append_assoc]; rfl⟩
  · rintro ⟨word, sp1, h1, sp2, sp3, sp4, h2, sp5, hw, hne, hs1, hh1, hs2, hs3, hs4, hh2, hs5,
      rfl⟩
    exact ⟨word, _, by simp only [List.append_assoc]; rfl, hw, sp1, _, rfl, ⟨hne, hs1⟩, h1, _, rfl,
      hh1, sp2, _, rfl, hs2, _, _, rfl, rfl, sp3, _, rfl, hs3, _, _, rfl, rfl, sp4, _, rfl,
      hs4, h2, _, rfl, hh2, sp5, _, rfl, hs5, rfl⟩

/-- What `sanitizeRecipe` checks, with the lengths that Go's `len` measures. -/
theorem sanitizeRecipe_iff (recipe : Recipe) :
    sanitizeRecipe recipe = true ↔
      recipe.Postcode ≠ [] ∧ len recipe.Postcode ≤ 10 ∧ DeliveryGrammar recipe.Delivery ∧
      recipe.Recipe ≠ [] ∧ len recipe.Recipe ≤ 100 := by
  rw [← matches_pattern, ← matchString_iff]
  unfold sanitizeRecipe
  by_cases h1 : recipe.Postcode = []
  · simp [h1]
  by_cases h2 : len recipe.Postcode > 10
  · simp [h1, h2]
  by_cases h3 : recipe.Delivery = []
  · have : matchString pattern [] = false := rfl
    simp [h1, h2, h3, this]
  by_cases h4 : matchString pattern recipe.Delivery = true
  · by_cases h5 : recipe.Recipe = []
    · simp [h1, h2, h3, h4, h5]
    · by_cases h6 : len recipe.Recipe > 100
      · simp [h1, h2, h3, h4, h5, h6]
      · have h2' : len recipe.Postcode ≤ 10 := by omega
        have h6' : len recipe.Recipe ≤ 100 := by omega
        simp [h1, h2, h3, h4, h5, h6, h2', h6']
  · simp [h1, h2, h3, h4]

end parser

/-! ### Start and end markers -/

theorem len_ascii (s : Str) (h : ∀ c ∈ s, c.toNat < 128) : len s = s.length := by
  induction s with
  | nil => rfl
  | cons c s ih =>
    have hc := h c (List.mem_cons_self _ _)
    have := ih (fun d hd => h d (List.mem_cons_of_mem _ hd))
    unfold len at this ⊢
    simp [bytes, utf8.encodeRune, hc, this]

namespace parser

open regexp.Regexp

theorem deliveryGrammar_of_match (s : Str) (h : matchString pattern s = true) :
    DeliveryGrammar s :=
  (matches_pattern s).1 ((matchString_iff s pattern).1 h)

end parser

/-! ### Record validation, and the theorems on a sample stream -/

section
open stats parser

theorem stats.sample_ok : Generate id config.defaultConfig sampleStream = .ok sampleReport := by
  decide

/-- C4 on the sample stream. -/
theorem stats.Generate_countPerRecipe_sorted_witness :
    Generate id config.defaultConfig sampleStream = .ok sampleReport ∧
    sampleReport.UniqueRecipeCount = sampleReport.CountPerRecipe.length ∧
    (sampleReport.CountPerRecipe.map fun rc => rc.Recipe).Sorted strLT ∧
    (sampleReport.CountPerRecipe.map fun rc => rc.Recipe).Nodup :=
  ⟨stats.sample_ok,
    stats.Generate_countPerRecipe_sorted id config.defaultConfig sampleStream sampleReport
      stats.sample_ok⟩

/-- C5 on the sample stream and the recipe that occurs twice. -/
theorem stats.Generate_countPerRecipe_exact_witness :
    Generate id config.defaultConfig sampleStream = .ok sampleReport ∧
    (({ Recipe := "Cherry Balsamic Pork Chops".toList, Count := 2 } : RecipeCount) ∈
        sampleReport.CountPerRecipe ↔
      1 ≤ 2 ∧ 2 = (recipeNames sampleStream).count "Cherry Balsamic Pork Chops".toList) :=
  ⟨stats.sample_ok,
    stats.Generate_countPerRecipe_exact id config.defaultConfig sampleStream sampleReport
      stats.sample_ok "Cherry Balsamic Pork Chops".toList 2⟩

/-- C6 on the sample stream. -/
theorem stats.Generate_countPerPostcodeAndTime_witness :
    Generate id config.defaultConfig sampleStream = .ok sampleReport ∧
    sampleReport.CountPerPostcodeAndTime.DeliveryCount
      = ((records sampleStream).filter (countsForWindow config.defaultConfig)).length :=
  ⟨stats.sample_ok,
    (stats.Generate_countPerPostcodeAndTime id config.defaultConfig sampleStream sampleReport
      stats.sample_ok).1⟩

theorem stats.case_ok : Generate id config.defaultConfig caseStream = .ok caseReport := by
  decide

/-- C8 on a stream whose recipe names differ in letter case from the configured keywords:
`Spicy VEGGIE Bowl` is matched by the keyword `Veggie` and `creamy mushroom Pasta` by the
keyword `Mushroom`, while `Potatoey stew` has no word equal to `Potato`. -/
theorem stats.Generate_matchByName_exact_witness :
    Generate id config.defaultConfig caseStream = .ok caseReport ∧
    caseReport.MatchByName = ["Spicy VEGGIE Bowl".toList, "creamy mushroom Pasta".toList] ∧
    caseReport.MatchByName.Sorted strLT ∧
    ("Spicy VEGGIE Bowl".toList ∈ caseReport.MatchByName ↔
      "Spicy VEGGIE Bowl".toList ∈ recipeNames caseStream ∧
      ∃ w, strings.IsWordOf w "Spicy VEGGIE Bowl".toList ∧
        ∃ k ∈ config.defaultConfig.Words, strings.EqualIgnoringCase id w k) ∧
    strings.EqualIgnoringCase id "VEGGIE".toList "Veggie".toList ∧
    ¬ strings.EqualIgnoringCase id "Potatoey".toList "Potato".toList :=
  have h := stats.Generate_matchByName_exact id config.defaultConfig caseStream caseReport
    stats.case_ok
  ⟨stats.case_ok, rfl, h.1, h.2.2 "Spicy VEGGIE Bowl".toList,
    by unfold strings.EqualIgnoringCase; decide,
    by unfold strings.EqualIgnoringCase; decide⟩

theorem parser.deliveryGrammar_sample : DeliveryGrammar "Monday 9AM - 5PM".toList :=
  deliveryGrammar_of_match _ (by decide)

/-- C9 fails on the code: the record of postcode `12345`, delivery `Monday 9AM - 5PM`, which
matches the delivery grammar, and a recipe name of 51 characters, each the letter U+00E9, is
rejected.  The name is not empty and has at most 100 characters, but `len` counts its 102
bytes.  A name of 50 such characters, of 100 bytes, is accepted; a postcode of 6 such
characters, of 12 bytes, is rejected. -/
theorem parser.sanitizeRecipe_rejects_characters :
    DeliveryGrammar "Monday 9AM - 5PM".toList ∧
    (List.replicate 51 (Char.ofNat 233)).length = 51 ∧
    len (List.replicate 51 (Char.ofNat 233)) = 102 ∧
    sanitizeRecipe { Postcode := "12345".toList, Delivery := "Monday 9AM - 5PM".toList,
                     Recipe := List.replicate 51 (Char.ofNat 233) } = false ∧
    sanitizeRecipe { Postcode := "12345".toList, Delivery := "Monday 9AM - 5PM".toList,
                     Recipe := List.replicate 50 (Char.ofNat 233) } = true ∧
    sanitizeRecipe { Postcode := List.replicate 6 (Char.ofNat 233),
                     Delivery := "Monday 9AM - 5PM".toList,
                     Recipe := "RecipeA".toList } = false :=
  ⟨parser.deliveryGrammar_sample, by decide, by decide, by decide, by decide, by decide⟩

set_option maxRecDepth 8000 in
theorem parser.reject_longName :
    sanitizeRecipe { Postcode := "12345".toList, Delivery := "Monday 9AM - 5PM".toList,
                     Recipe := (List.replicate 20 "Recipe".toList).flatten } = false := by
  decide

/-- What `sanitizeRecipe` measures: for a record whose delivery matches the delivery grammar,
it accepts exactly when the postcode is non-empty and at most 10 bytes long and the item name
is non-empty and at most 100 bytes long, lengths being those of the UTF-8 encoding (Go's
`len`), which is the number of characters for ASCII text only.  The empty postcode, the postcode
`12345678901`, the empty record and a name of 120 characters are rejected; the record
`12345`, `Monday 9AM - 5PM`, `RecipeA` is accepted. -/
theorem parser.sanitizeRecipe_lengths :
    (∀ recipe : Recipe, DeliveryGrammar recipe.Delivery →
      (sanitizeRecipe recipe = true ↔
        recipe.Postcode ≠ [] ∧ len recipe.Postcode ≤ 10 ∧
        recipe.Recipe ≠ [] ∧ len recipe.Recipe ≤ 100)) ∧
    (∀ s : Str, (∀ c ∈ s, c.toNat < 128) → len s = s.length) ∧
    sanitizeRecipe { Postcode := [], Delivery := "Monday 9AM - 5PM".toList,
                     Recipe := "RecipeA".toList } = false ∧
    sanitizeRecipe { Postcode := "12345678901".toList, Delivery := "Monday 9AM - 5PM".toList,
                     Recipe := "RecipeA".toList } = false ∧
    sanitizeRecipe { Postcode := [], Delivery := [], Recipe := [] } = false ∧
    sanitizeRecipe { Postcode := "12345".toList, Delivery := "Monday 9AM - 5PM".toList,
                     Recipe := (List.replicate 20 "Recipe".toList).flatten } = false ∧
    sanitizeRecipe { Postcode := "12345".toList, Delivery := "Monday 9AM - 5PM".toList,
                     Recipe := "RecipeA".toList } = true := by
  refine ⟨fun recipe hg => ?_, len_ascii, by decide, by decide, by decide,
    parser.reject_longName, by decide⟩
  rw [sanitizeRecipe_iff]
  constructor
  · rintro ⟨h1, h2, -, h4, h5⟩
    exact ⟨h1, h2, h4, h5⟩
  · rintro ⟨h1, h2, h4, h5⟩
    exact ⟨h1, h2, hg, h4, h5⟩

/-- The byte lengths of the valid record of the test suite. -/
theorem parser.sanitizeRecipe_lengths_witness :
    DeliveryGrammar "Monday 9AM - 5PM".toList ∧
    (sanitizeRecipe { Postcode := "12345".toList, Delivery := "Monday 9AM - 5PM".toList,
                      Recipe := "RecipeA".toList } = true ↔
      "12345".toList ≠ [] ∧ len "12345".toList ≤ 10 ∧
      "RecipeA".toList ≠ [] ∧ len "RecipeA".toList ≤ 100) :=
  ⟨parser.deliveryGrammar_sample,
    parser.sanitizeRecipe_lengths.1
      { Postcode := "12345".toList, Delivery := "Monday 9AM - 5PM".toList,
        Recipe := "RecipeA".toList } parser.deliveryGrammar_sample⟩

end

/-! ### Error entries -/

namespace stats

theorem loopBody_error_entry (caseTable : Char → Char) (cfg : config.Config)
    (words : GoMap Bool) (v : Vars) (entry : parser.Entry) (h : entry.Error ≠ none) :
    loopBody caseTable cfg words v entry = .ok v := by
  unfold loopBody
  simp [h]

theorem loop_filter (caseTable : Char → Char) (cfg : config.Config) (words : GoMap Bool)
    (stream : List parser.Entry) : ∀ v : Vars,
    loop caseTable cfg words stream v =
      loop caseTable cfg words (stream.filter fun entry => entry.Error = none) v := by
  induction stream with
  | nil => intro v; rfl
  | cons entry rest ih =>
    intro v
    by_cases he : entry.Error = none
    · rw [List.filter_cons_of_pos (by simpa using he)]
      unfold loop
      cases loopBody caseTable cfg words v entry with
      | error err => rfl
      | ok v' => exact ih v'
    · rw [List.filter_cons_of_neg (by simpa using he)]
      rw [← ih v]
      conv_lhs => unfold loop
      rw [loopBody_error_entry _ _ _ _ _ he]

end stats

/-- C11: error entries are excluded from all aggregates and never abort the run: on every
stream and under every configuration `Generate` returns what it returns on the stream without
its error entries, the same report or the same failure. -/
theorem stats.Generate_skips_errors (caseTable : Char → Char) (cfg : config.Config)
    (stream : List parser.Entry) :
    stats.Generate caseTable cfg stream =
      stats.Generate caseTable cfg (stream.filter fun entry => entry.Error = none) := by
  unfold stats.Generate
  rw [stats.loop_filter]

/-! ### Deliveries that cannot be read -/

namespace strings

theorem Index_spec (sep : Str) (s : Str) :
    (∀ i, Index s sep = some i →
      ∃ a b : Str, s = a ++ sep ++ b ∧ a.length = i ∧
        ∀ a' b' : Str, s = a' ++ sep ++ b' → i ≤ a'.length) ∧
    (Index s sep = none → ∀ a' b' : Str, s ≠ a' ++ sep ++ b') := by
  induction s with
  | nil =>
    unfold Index
    constructor
    · intro i h
      split at h
      · next hs =>
        simp only [Option.some.injEq] at h
        subst h
        subst hs
        exact ⟨[], [], by simp, rfl, fun _ _ _ => Nat.zero_le _⟩
      · simp at h
    · intro h a' b' e
      split at h
      · simp at h
      · next hs =>
        apply hs
        have := congrArg List.length e
        simp at this
        exact List.length_eq_zero.1 (by omega)
  | cons c cs ih =>
    obtain ⟨ih1, ih2⟩ := ih
    unfold Index
    by_cases hp : sep.isPrefixOf (c :: cs) = true
    · simp only [hp, if_true]
      constructor
      · intro i h
        simp only [Option.some.injEq] at h
        subst h
        obtain ⟨t, ht⟩ := List.isPrefixOf_iff_prefix.1 hp
        exact ⟨[], t, by simp [ht], rfl, fun _ _ _ => Nat.zero_le _⟩
      · intro h; simp at h
    · simp only [hp, if_false, Bool.false_eq_true]
      have hnil : ∀ b' : Str, c :: cs ≠ [] ++ sep ++ b' := by
        intro b' e
        apply hp
        rw [List.isPrefixOf_iff_prefix]
        exact ⟨b', by simpa using e.symm⟩
      constructor
      · intro i h
        cases hi : Index cs sep with
        | none => rw [hi] at h; simp at h
        | some j =>
          rw [hi] at h
          simp only [Option.some.injEq] at h
          subst h
          obtain ⟨a, b, e, hl, hmin⟩ := ih1 j hi
          refine ⟨c :: a, b, by simp [e], by simp [hl], fun a' b' e' => ?_⟩
          cases a' with
          | nil => exact absurd e' (hnil b')
          | cons d a'' =>
            simp only [List.cons_append, List.cons.injEq] at e'
            have := hmin a'' b' (by simpa using e'.2)
            simp only [List.length_cons]
            omega
      · intro h a' b' e'
        cases hi : Index cs sep with
        | some j => rw [hi] at h; simp at h
        | none =>
          cases a' with
          | nil => exact absurd e' (hnil b')
          | cons d a'' =>
            simp only [List.cons_append, List.cons.injEq] at e'
            exact ih2 hi a'' b' (by simpa using e'.2)

theorem SplitN_cut (s sep a b : Str) : SplitN s sep 2 = [a, b] ↔ CutsAt s sep a b := by
  constructor
  · intro h
    obtain ⟨i, hi, rfl, rfl⟩ := SplitN_two s sep _ _ h
    obtain ⟨a, b, e, hl, hmin⟩ := (Index_spec sep s).1 i hi
    subst hl
    have e1 : List.take a.length s = a := by rw [e]; simp
    have e2 : List.drop (a.length + sep.length) s = b := by
      rw [e, List.append_assoc, List.drop_append_eq_append_drop]
      simp
    rw [e1, e2]
    exact ⟨e, hmin⟩
  · rintro ⟨e, hmin⟩
    cases hi : Index s sep with
    | none => exact absurd e ((Index_spec sep s).2 hi a b)
    | some i =>
      obtain ⟨a0, b0, e0, hl, hmin0⟩ := (Index_spec sep s).1 i hi
      have h1 : a0.length = a.length := by
        have := hmin0 a b e
        have := hmin a0 b0 e0
        omega
      have h2 : a0 ++ (sep ++ b0) = a ++ (sep ++ b) := by
        rw [← List.append_assoc, ← List.append_assoc, ← e0, ← e]
      obtain ⟨h3, h4⟩ := List.append_inj h2 h1
      have h5 : b0 = b := List.append_cancel_left h4
      subst h3
      subst h5
      subst hl
      have e1 : List.take a0.length s = a0 := by rw [e]; simp
      have e2 : List.drop (a0.length + sep.length) s = b0 := by
        rw [e, List.append_assoc, List.drop_append_eq_append_drop]
        simp
      unfold SplitN
      rw [hi]
      simp only [SplitN, e1, e2]

theorem SplitN_none (s sep : Str) (h : Index s sep = none) : SplitN s sep 2 = [s] := by
  unfold SplitN
  rw [h]

theorem SplitN_cases (s sep : Str) :
    (SplitN s sep 2 = [s] ∧ ∀ a b : Str, s ≠ a ++ sep ++ b) ∨
    ∃ a b : Str, SplitN s sep 2 = [a, b] ∧ CutsAt s sep a b := by
  cases hi : Index s sep with
  | none => exact Or.inl ⟨SplitN_none s sep hi, (Index_spec sep s).2 hi⟩
  | some i =>
    right
    have : SplitN s sep 2 = [List.take i s, List.drop (i + sep.length) s] := by
      unfold SplitN
      rw [hi]
      simp only [SplitN]
    exact ⟨_, _, this, (SplitN_cut s sep _ _).1 this⟩

theorem not_mem_iff_no_cut (c : Char) (s : Str) :
    c ∉ s ↔ ∀ a b : Str, s ≠ a ++ [c] ++ b := by
  constructor
  · intro h a b e
    apply h
    rw [e]
    simp
  · intro h hc
    obtain ⟨a, b, e⟩ := List.append_of_mem hc
    exact h a b (by simpa using e)

end strings

namespace stats

theorem isDeliveryTimeInRange_start_error (delivery fromHour toHour : Str) (err : Err)
    (h : parseHour fromHour = .error err) :
    isDeliveryTimeInRange delivery fromHour toHour =
      .error (Err.wrap err "failed to parse start hour") := by
  unfold isDeliveryTimeInRange
  rw [h]

theorem isDeliveryTimeInRange_end_error (delivery fromHour toHour : Str) (f : Int) (err : Err)
    (hf : parseHour fromHour = .ok f) (h : parseHour toHour = .error err) :
    isDeliveryTimeInRange delivery fromHour toHour =
      .error (Err.wrap err "failed to parse end hour") := by
  unfold isDeliveryTimeInRange
  rw [hf, h]

/-- The result of `isDeliveryTimeInRange` once the configured hours are parsed, by the shape of
the delivery. -/
theorem isDeliveryTimeInRange_parsed (delivery fromHour toHour : Str) (f t : Int)
    (hf : parseHour fromHour = .ok f) (ht : parseHour toHour = .ok t) :
    (' ' ∉ delivery ∧ isDeliveryTimeInRange delivery fromHour toHour =
        .error (Err.new "failed to split delivery string")) ∨
    ∃ day rest : Str, strings.CutsAt delivery " ".toList day rest ∧
      (((∀ a b : Str, rest ≠ a ++ " - ".toList ++ b) ∧
          isDeliveryTimeInRange delivery fromHour toHour =
            .error (Err.new "failed to split delivery time")) ∨
        ∃ start stop : Str, strings.CutsAt rest " - ".toList start stop ∧
          isDeliveryTimeInRange delivery fromHour toHour =
            match parseHour start with
            | .error err => .error (Err.wrap err "failed to parse delivery start hour")
            | .ok ds =>
              match parseHour stop with
              | .error err => .error (Err.wrap err "failed to parse delivery end hour")
              | .ok de => .ok (decide (ds ≤ f ∧ t < de))) := by
  unfold isDeliveryTimeInRange
  rw [hf, ht]
  simp only
  rcases strings.SplitN_cases delivery " ".toList with ⟨h1, h2⟩ | ⟨day, rest, h1, h2⟩
  · left
    rw [h1]
    exact ⟨(strings.not_mem_iff_no_cut ' ' delivery).2 h2, rfl⟩
  · right
    refine ⟨day, rest, h2, ?_⟩
    rw [h1]
    simp only
    rcases strings.SplitN_cases rest " - ".toList with ⟨h3, h4⟩ | ⟨start, stop, h3, h4⟩
    · left
      rw [h3]
      refine ⟨h4, ?_⟩
      cases rest with
      | nil => rfl
      | cons c cs => rfl
    · right
      refine ⟨start, stop, h4, ?_⟩
      rw [h3]
      simp only
      cases parseHour start with
      | error err => rfl
      | ok ds =>
        cases parseHour stop with
        | error err => rfl
        | ok de =>
          simp only
          by_cases hc : ds ≤ f ∧ t < de
          · simp [hc]
          · simp [hc]

theorem cutsAt_unique (s sep a b a' b' : Str) (h : strings.CutsAt s sep a b)
    (h' : strings.CutsAt s sep a' b') : a = a' ∧ b = b' := by
  have e := ((strings.SplitN_cut s sep a b).2 h).symm.trans ((strings.SplitN_cut s sep a' b').2 h')
  simp only [List.cons.injEq, and_true] at e
  exact e

/-- `isDeliveryTimeInRange` returns an error exactly when a configured hour is rejected by
`parseHour` or the delivery cannot be read. -/
theorem isDeliveryTimeInRange_error_iff (delivery fromHour toHour : Str) :
    (∃ err, isDeliveryTimeInRange delivery fromHour toHour = .error err) ↔
      (∃ err, parseHour fromHour = .error err) ∨ (∃ err, parseHour toHour = .error err) ∨
      Unreadable delivery := by
  cases hf : parseHour fromHour with
  | error err =>
    rw [isDeliveryTimeInRange_start_error _ _ _ _ hf]
    exact ⟨fun _ => Or.inl ⟨err, rfl⟩, fun _ => ⟨_, rfl⟩⟩
  | ok f =>
  cases ht : parseHour toHour with
  | error err =>
    rw [isDeliveryTimeInRange_end_error _ _ _ _ _ hf ht]
    exact ⟨fun _ => Or.inr (Or.inl ⟨err, rfl⟩), fun _ => ⟨_, rfl⟩⟩
  | ok t =>
  have hno : ∀ (x : Int), ¬ ∃ err : Err, (Except.ok x : Except Err Int) = .error err := by
    intro x h
    obtain ⟨_, h⟩ := h
    cases h
  simp only [hno, false_or]
  rcases isDeliveryTimeInRange_parsed delivery fromHour toHour f t hf ht with
    ⟨h1, h2⟩ | ⟨day, rest, hc, ⟨h1, h2⟩ | ⟨start, stop, hc2, h2⟩⟩
  · rw [h2]
    exact ⟨fun _ => Or.inl h1, fun _ => ⟨_, rfl⟩⟩
  · rw [h2]
    refine ⟨fun _ => Or.inr ⟨day, rest, hc, Or.inl ?_⟩, fun _ => ⟨_, rfl⟩⟩
    rintro ⟨a, b, e⟩
    exact h1 a b e
  · rw [h2]
    constructor
    · intro h
      refine Or.inr ⟨day, rest, hc, Or.inr ⟨start, stop, hc2, ?_⟩⟩
      cases hs : parseHour start with
      | error err => exact Or.inl ⟨err, rfl⟩
      | ok ds =>
        cases he : parseHour stop with
        | error err => exact Or.inr ⟨err, rfl⟩
        | ok de =>
          rw [hs, he] at h
          obtain ⟨_, h⟩ := h
          cases h
    · rintro (h | ⟨day', rest', hc', h | ⟨start', stop', hc2', h⟩⟩)
      · exfalso
        apply h
        rw [hc.1]
        simp
      · obtain ⟨-, rfl⟩ := cutsAt_unique _ _ _ _ _ _ hc hc'
        exfalso
        exact h ⟨start, stop, hc2.1⟩
      · obtain ⟨-, rfl⟩ := cutsAt_unique _ _ _ _ _ _ hc hc'
        obtain ⟨rfl, rfl⟩ := cutsAt_unique _ _ _ _ _ _ hc2 hc2'
        rcases h with ⟨err, h⟩ | ⟨err, h⟩
        · rw [h]
          exact ⟨_, rfl⟩
        · rw [h]
          cases parseHour start with
          | error err' => exact ⟨_, rfl⟩
          | ok ds => exact ⟨_, rfl⟩

end stats

/-- C20: `isDeliveryTimeInRange` never reports inclusion for a delivery that it cannot read.
If a configured hour is rejected by `parseHour`, or the delivery string holds no space, or its
time part holds no ` - `, or the delivery start or the delivery end is rejected by `parseHour`,
the function returns an error, which the source pairs with `false`.  `Monday 99AM - 5PM`
against 10PM and 3AM is such an error. -/
theorem stats.isDeliveryTimeInRange_unreadable :
    (∀ delivery fromHour toHour : Str,
      ((∃ err, stats.parseHour fromHour = .error err) ∨
        (∃ err, stats.parseHour toHour = .error err) ∨ stats.Unreadable delivery) →
      (∃ err, stats.isDeliveryTimeInRange delivery fromHour toHour = .error err) ∧
      stats.isDeliveryTimeInRange delivery fromHour toHour ≠ .ok true) ∧
    stats.isDeliveryTimeInRange "Monday 99AM - 5PM".toList "10PM".toList "3AM".toList =
      .error (Err.wrap (Err.new "hour is not in range 1-12")
        "failed to parse delivery start hour") := by
  refine ⟨fun delivery fromHour toHour h => ?_, by decide⟩
  have := (stats.isDeliveryTimeInRange_error_iff delivery fromHour toHour).2 h
  refine ⟨this, ?_⟩
  obtain ⟨err, he⟩ := this
  rw [he]
  simp

/-- C20 on the delivery `Monday 99AM - 5PM` of the test suite: it is cut at its first space
and at its first ` - `, and its delivery start `99AM` is rejected. -/
theorem stats.isDeliveryTimeInRange_unreadable_witness :
    stats.Unreadable "Monday 99AM - 5PM".toList ∧
    (∃ err, stats.isDeliveryTimeInRange "Monday 99AM - 5PM".toList "10PM".toList
      "3AM".toList = .error err) := by
  have hu : stats.Unreadable "Monday 99AM - 5PM".toList :=
    Or.inr ⟨"Monday".toList, "99AM - 5PM".toList,
      (strings.SplitN_cut _ _ _ _).1 (by decide),
      Or.inr ⟨"99AM".toList, "5PM".toList, (strings.SplitN_cut _ _ _ _).1 (by decide),
        Or.inl ⟨Err.new "hour is not in range 1-12", by decide⟩⟩⟩
  exact ⟨hu, (stats.isDeliveryTimeInRange_unreadable.1 _ "10PM".toList "3AM".toList
    (Or.inr (Or.inr hu))).1⟩

/-! ### Failures of `Generate` -/

namespace stats

/-- The loop of `Generate` is left with an error exactly when some entry without error bears
the configured postcode and `isDeliveryTimeInRange` returns an error on its delivery. -/
theorem loop_error_iff (caseTable : Char → Char) (cfg : config.Config) (words : GoMap Bool)
    (stream : List parser.Entry) : ∀ v : Vars,
    (∃ err, loop caseTable cfg words stream v = .error err) ↔
      ∃ entry ∈ stream, entry.Error = none ∧ entry.Recipe.Postcode = cfg.Postcode ∧
        ∃ err, isDeliveryTimeInRange entry.Recipe.Delivery cfg.FromTime cfg.ToTime
          = .error err := by
  induction stream with
  | nil =>
    intro v
    constructor
    · rintro ⟨err, h⟩
      simp [loop] at h
    · rintro ⟨entry, hm, _⟩
      simp at hm
  | cons entry rest ih =>
    intro v
    unfold loop
    cases hb : loopBody caseTable cfg words v entry with
    | error err =>
      simp only
      constructor
      · intro _
        refine ⟨entry, List.mem_cons_self _ _, ?_⟩
        unfold loopBody at hb
        by_cases he : entry.Error = none
        · simp only [he, ne_eq, not_true_eq_false, if_false] at hb
          by_cases hp : entry.Recipe.Postcode = cfg.Postcode
          · simp only [hp, if_true] at hb
            cases hr : isDeliveryTimeInRange entry.Recipe.Delivery cfg.FromTime cfg.ToTime with
            | error err' => exact ⟨he, hp, err', rfl⟩
            | ok b => rw [hr] at hb; simp at hb
          · simp [hp] at hb
        · simp [he] at hb
      · intro _
        exact ⟨err, rfl⟩
    | ok v' =>
      simp only
      rw [ih v']
      constructor
      · rintro ⟨e, hm, h⟩
        exact ⟨e, List.mem_cons_of_mem _ hm, h⟩
      · rintro ⟨e, hm, h1, h2, err, h3⟩
        rcases List.mem_cons.1 hm with rfl | hm
        · exfalso
          rcases loopBody_ok _ _ _ _ _ _ hb with ⟨hne, _⟩ | ⟨_, _, _, _, _, _, hok⟩
          · exact hne h1
          · obtain ⟨b, hb'⟩ := hok h2
            rw [hb'] at h3
            cases h3
        · exact ⟨e, hm, h1, h2, err, h3⟩

theorem Generate_error_iff (caseTable : Char → Char) (cfg : config.Config)
    (stream : List parser.Entry) :
    (∃ err, Generate caseTable cfg stream = .error err) ↔
      ∃ entry ∈ stream, entry.Error = none ∧ entry.Recipe.Postcode = cfg.Postcode ∧
        ∃ err, isDeliveryTimeInRange entry.Recipe.Delivery cfg.FromTime cfg.ToTime
          = .error err := by
  rw [← loop_error_iff caseTable cfg (wordsMap caseTable cfg.Words) stream initVars]
  unfold Generate
  cases loop caseTable cfg (wordsMap caseTable cfg.Words) stream initVars with
  | error err => exact ⟨fun _ => ⟨err, rfl⟩, fun _ => ⟨err, rfl⟩⟩
  | ok v =>
    constructor
    · rintro ⟨err, h⟩
      cases h
    · rintro ⟨err, h⟩
      cases h

theorem Generate_ok_or_error (caseTable : Char → Char) (cfg : config.Config)
    (stream : List parser.Entry) :
    (∃ report, Generate caseTable cfg stream = .ok report) ∨
      ∃ err, Generate caseTable cfg stream = .error err := by
  cases Generate caseTable cfg stream with
  | error err => exact Or.inr ⟨err, rfl⟩
  | ok report => exact Or.inl ⟨report, rfl⟩

end stats

section
open stats

/-- A record that `sanitizeRecipe` accepts, for the configured postcode, with whitespace
between the first hour numeral and its marker. -/
theorem stats.spacedEntry_valid :
    parser.sanitizeRecipe
      { Recipe := "RecipeA".toList, Postcode := "10120".toList,
        Delivery := "Monday 9 AM - 5PM".toList } = true := by
  decide

/-- C13 as stated fails: under the default configuration, whose hours `10AM` and `3PM` are
parsed, `Generate` returns an error on the stream of the single record `10120`,
`Monday 9 AM - 5PM`, `RecipeA`, which `sanitizeRecipe` accepts. -/
theorem stats.Generate_fails_counterexample :
    ¬ ((∃ err, Generate id config.defaultConfig
          [{ Recipe := { Recipe := "RecipeA".toList, Postcode := "10120".toList,
                         Delivery := "Monday 9 AM - 5PM".toList },
             Error := none }] = .error err) →
        (∃ err, parseHour config.defaultConfig.FromTime = .error err) ∨
        (∃ err, parseHour config.defaultConfig.ToTime = .error err)) := by
  intro h
  have h1 : ∃ err, Generate id config.defaultConfig
      [{ Recipe := { Recipe := "RecipeA".toList, Postcode := "10120".toList,
                     Delivery := "Monday 9 AM - 5PM".toList },
         Error := none }] = .error err :=
    ⟨Err.wrap (Err.wrap Err.numError "failed to parse delivery start hour")
      "failed to check if delivery time is in range", by decide⟩
  have hf : parseHour config.defaultConfig.FromTime = .ok 10 := by decide
  have ht : parseHour config.defaultConfig.ToTime = .ok 15 := by decide
  rcases h h1 with ⟨err, h2⟩ | ⟨err, h2⟩
  · rw [hf] at h2
    cases h2
  · rw [ht] at h2
    cases h2

/-- C13, amended: if `Generate` returns an error, then the configured `fromHour` or the
configured `toHour` is rejected by `parseHour`, or some entry without error that bears the
configured postcode has a delivery string that cannot be read; and conversely, given an entry
without error that bears the configured postcode, each of these makes `Generate` return an
error. -/
theorem stats.Generate_fails_only :
    (∀ (caseTable : Char → Char) (cfg : config.Config) (stream : List parser.Entry) (err : Err),
      Generate caseTable cfg stream = .error err →
      (∃ e, parseHour cfg.FromTime = .error e) ∨ (∃ e, parseHour cfg.ToTime = .error e) ∨
      ∃ entry ∈ stream, entry.Error = none ∧ entry.Recipe.Postcode = cfg.Postcode ∧
        Unreadable entry.Recipe.Delivery) ∧
    (∀ (caseTable : Char → Char) (cfg : config.Config) (stream : List parser.Entry)
        (entry : parser.Entry),
      entry ∈ stream → entry.Error = none → entry.Recipe.Postcode = cfg.Postcode →
      ((∃ e, parseHour cfg.FromTime = .error e) ∨ (∃ e, parseHour cfg.ToTime = .error e) ∨
        Unreadable entry.Recipe.Delivery) →
      ∃ err, Generate caseTable cfg stream = .error err) := by
  constructor
  · intro caseTable cfg stream err h
    obtain ⟨entry, hm, h1, h2, h3⟩ := (Generate_error_iff caseTable cfg stream).1 ⟨err, h⟩
    rcases (isDeliveryTimeInRange_error_iff _ _ _).1 h3 with h4 | h4 | h4
    · exact Or.inl h4
    · exact Or.inr (Or.inl h4)
    · exact Or.inr (Or.inr ⟨entry, hm, h1, h2, h4⟩)
  · intro caseTable cfg stream entry hm h1 h2 h3
    exact (Generate_error_iff caseTable cfg stream).2
      ⟨entry, hm, h1, h2, (isDeliveryTimeInRange_error_iff _ _ _).2 h3⟩

/-- C13, amended, on the stream of the counterexample: the error comes from the delivery
`Monday 9 AM - 5PM`, whose delivery start `9 AM` is rejected by `parseHour`. -/
theorem stats.Generate_fails_only_witness :
    Generate id config.defaultConfig
        [{ Recipe := { Recipe := "RecipeA".toList, Postcode := "10120".toList,
                       Delivery := "Monday 9 AM - 5PM".toList },
           Error := none }] =
      .error (Err.wrap (Err.wrap Err.numError "failed to parse delivery start hour")
        "failed to check if delivery time is in range") ∧
    ((∃ e, parseHour config.defaultConfig.FromTime = .error e) ∨
      (∃ e, parseHour config.defaultConfig.ToTime = .error e) ∨
      ∃ entry ∈ [({ Recipe := { Recipe := "RecipeA".toList, Postcode := "10120".toList,
                                Delivery := "Monday 9 AM - 5PM".toList },
                    Error := none } : parser.Entry)],
        entry.Error = none ∧ entry.Recipe.Postcode = config.defaultConfig.Postcode ∧
        Unreadable entry.Recipe.Delivery) :=
  ⟨by decide, stats.Generate_fails_only.1 id config.defaultConfig _
    (Err.wrap (Err.wrap Err.numError "failed to parse delivery start hour")
      "failed to check if delivery time is in range") (by decide)⟩

/-- C14 as stated fails: with the configured hours `noon` and `3PM`, of which the first is
rejected by `parseHour`, `Generate` returns a report on the empty stream. -/
theorem stats.Generate_config_hours_counterexample :
    ¬ (((∃ err, parseHour "noon".toList = .error err) ∨
          (∃ err, parseHour "3PM".toList = .error err)) →
        ∃ err, Generate id
          { File := [], Words := [], Postcode := "10120".toList, FromTime := "noon".toList,
            ToTime := "3PM".toList } [] = .error err) := by
  intro h
  obtain ⟨err, h1⟩ := h (Or.inl ⟨Err.numError, by decide⟩)
  have h2 : Generate id
      { File := [], Words := [], Postcode := "10120".toList, FromTime := "noon".toList,
        ToTime := "3PM".toList } [] =
      .ok { UniqueRecipeCount := 0, CountPerRecipe := [],
            BusiestPostcode := { Postcode := [], DeliveryCount := 0 },
            CountPerPostcodeAndTime :=
              { Postcode := "10120".toList, From := "noon".toList, To := "3PM".toList,
                DeliveryCount := 0 },
            MatchByName := [] } := by decide
  rw [h2] at h1
  cases h1

/-- C14, amended: when the configured `fromHour` or `toHour` is rejected by `parseHour` and
the stream holds an entry without error that bears the configured postcode, `Generate`
returns an error and no report; when the stream holds no such entry, `Generate` returns a
report whatever the configured hours are. -/
theorem stats.Generate_config_hours :
    (∀ (caseTable : Char → Char) (cfg : config.Config) (stream : List parser.Entry),
      ((∃ e, parseHour cfg.FromTime = .error e) ∨ (∃ e, parseHour cfg.ToTime = .error e)) →
      (∃ entry ∈ stream, entry.Error = none ∧ entry.Recipe.Postcode = cfg.Postcode) →
      (∃ err, Generate caseTable cfg stream = .error err) ∧
      ∀ report, Generate caseTable cfg stream ≠ .ok report) ∧
    (∀ (caseTable : Char → Char) (cfg : config.Config) (stream : List parser.Entry),
      (∀ entry ∈ stream, entry.Error = none → entry.Recipe.Postcode ≠ cfg.Postcode) →
      ∃ report, Generate caseTable cfg stream = .ok report) := by
  constructor
  · intro caseTable cfg stream h ⟨entry, hm, h1, h2⟩
    have : ∃ err, Generate caseTable cfg stream = .error err := by
      refine (Generate_error_iff caseTable cfg stream).2 ⟨entry, hm, h1, h2, ?_⟩
      apply (isDeliveryTimeInRange_error_iff _ _ _).2
      rcases h with h | h
      · exact Or.inl h
      · exact Or.inr (Or.inl h)
    refine ⟨this, fun report hr => ?_⟩
    obtain ⟨err, he⟩ := this
    rw [he] at hr
    cases hr
  · intro caseTable cfg stream h
    rcases Generate_ok_or_error caseTable cfg stream with hr | he
    · exact hr
    · exfalso
      obtain ⟨entry, hm, h1, h2, _⟩ := (Generate_error_iff caseTable cfg stream).1 he
      exact h entry hm h1 h2

/-- C14, amended, on the sample stream with the rejected hour `noon`. -/
theorem stats.Generate_config_hours_witness :
    ((∃ e, parseHour "noon".toList = .error e) ∨ (∃ e, parseHour "3PM".toList = .error e)) ∧
    (∃ entry ∈ sampleStream, entry.Error = none ∧ entry.Recipe.Postcode = "10120".toList) ∧
    (∃ err, Generate id
      { File := [], Words := [], Postcode := "10120".toList, FromTime := "noon".toList,
        ToTime := "3PM".toList } sampleStream = .error err) :=
  have h1 : (∃ e, parseHour "noon".toList = .error e) ∨
      (∃ e, parseHour "3PM".toList = .error e) := Or.inl ⟨Err.numError, by decide⟩
  have h2 : ∃ entry ∈ sampleStream, entry.Error = none ∧
      entry.Recipe.Postcode = "10120".toList :=
    ⟨recordEntry "10120" "Veggie Bowl", by decide, by decide, by decide⟩
  ⟨h1, h2, (stats.Generate_config_hours.1 id
    { File := [], Words := [], Postcode := "10120".toList, FromTime := "noon".toList,
      ToTime := "3PM".toList } sampleStream h1 h2).1⟩

end

/-! ### The entries that `Parse` sends -/

namespace parser

theorem loopBody_eq (element : Recipe × Option Err) (sent : List Entry) :
    loopBody element.1 element.2 sent = sent ++ sentFor element := by
  obtain ⟨recipe, decodeError⟩ := element
  cases decodeError with
  | none => by_cases hs : sanitizeRecipe recipe = true <;> simp [loopBody, sentFor, hs]
  | some err => by_cases hs : sanitizeRecipe recipe = true <;> simp [loopBody, sentFor, hs]

/-- The turns of `elements` are enough for the loop to end when the decoder is not stuck. -/
theorem parseLoop_eq (elements : List (Recipe × Option Err)) :
    ∀ (turns : Nat) (sent : List Entry), elements.length ≤ turns →
    parseLoop turns elements none sent =
      { sent := sent ++ elements.flatMap sentFor, ended := true } := by
  induction elements with
  | nil =>
    intro turns sent _
    cases turns <;> simp [parseLoop]
  | cons element rest ih =>
    intro turns sent h
    obtain ⟨recipe, decodeError⟩ := element
    cases turns with
    | zero => simp at h
    | succ turns =>
      have hl : rest.length ≤ turns := by simpa using h
      rw [parseLoop, ih turns _ hl, loopBody_eq (recipe, decodeError)]
      simp

/-- With fewer turns than elements the loop has not ended. -/
theorem parseLoop_short (elements : List (Recipe × Option Err)) (stuckError : Option Err) :
    ∀ (turns : Nat) (sent : List Entry), turns < elements.length →
    (parseLoop turns elements stuckError sent).ended = false := by
  induction elements with
  | nil => intro turns sent h; simp at h
  | cons element rest ih =>
    intro turns sent h
    obtain ⟨recipe, decodeError⟩ := element
    cases turns with
    | zero => cases stuckError <;> rfl
    | succ turns =>
      rw [parseLoop]
      exact ih turns _ (by simpa using h)

/-- On a stuck decoder the loop never ends, and every turn past the elements sends one more
error entry. -/
theorem parseLoop_stuck (err : Err) (elements : List (Recipe × Option Err)) :
    ∀ (turns : Nat) (sent : List Entry),
    (parseLoop turns elements (some err) sent).ended = false ∧
    sent.length + (turns - elements.length) ≤
      (parseLoop turns elements (some err) sent).sent.length := by
  induction elements with
  | nil =>
    intro turns
    induction turns with
    | zero => intro sent; exact ⟨rfl, by simp [parseLoop]⟩
    | succ turns ih =>
      intro sent
      rw [parseLoop]
      obtain ⟨h1, h2⟩ := ih (loopBody { Recipe := [], Postcode := [], Delivery := [] }
        (some err) sent)
      refine ⟨h1, le_trans ?_ h2⟩
      have hz : sanitizeRecipe { Recipe := [], Postcode := [], Delivery := [] } = false := by
        decide
      simp [loopBody, hz]
      omega
  | cons element rest ih =>
    intro turns sent
    obtain ⟨recipe, decodeError⟩ := element
    cases turns with
    | zero => exact ⟨rfl, by simp [parseLoop]⟩
    | succ turns =>
      rw [parseLoop]
      obtain ⟨h1, h2⟩ := ih turns (loopBody recipe decodeError sent)
      refine ⟨h1, le_trans ?_ h2⟩
      have hl : sent.length ≤ (loopBody recipe decodeError sent).length := by
        rw [loopBody_eq (recipe, decodeError)]
        simp
      simp only [List.length_cons]
      omega

/-- What `Parse` sends when the source opens, both delimiters are read and the decoder is
never stuck: the turns of the elements are enough for it to return. -/
theorem Parse_opened (source : Source) (h1 : source.openError = none)
    (h2 : source.openingDelimiterError = none) (h3 : source.closingDelimiterError = none)
    (h4 : source.stuckError = none) (turns : Nat) (ht : source.elements.length ≤ turns) :
    Parse turns source = { sent := source.elements.flatMap sentFor, ended := true } := by
  unfold Parse
  rw [h1, h2, h3, h4]
  simp [parseLoop_eq _ _ _ ht]

/-- A run of `Parse` whose decoder is stuck never returns: the channel stays open and
receives one more error entry on every further turn. -/
theorem Parse_stuck (source : Source) (err : Err) (h1 : source.openError = none)
    (h2 : source.stuckError = some err) (turns : Nat) :
    (Parse turns source).ended = false ∧
    turns - source.elements.length ≤ (Parse turns source).sent.length := by
  unfold Parse
  rw [h1, h2]
  cases source.openingDelimiterError with
  | none =>
    obtain ⟨ha, hb⟩ := parseLoop_stuck err source.elements turns []
    simp only [ha, Bool.not_false, if_true]
    exact ⟨trivial, by simpa using hb⟩
  | some e =>
    obtain ⟨ha, hb⟩ := parseLoop_stuck err source.elements turns
      [errorEntry e "failed to read opening delimiter"]
    simp only [ha, Bool.not_false, if_true]
    refine ⟨trivial, ?_⟩
    simp only [List.length_singleton] at hb
    omega

/-- The array of a valid record followed by an element with a syntax error: the decoder is
stuck on the error, and after five turns `Parse` has sent the record and four error entries
and has not returned. -/
theorem Parse_stuck_sample :
    Parse 5 { openError := none, openingDelimiterError := none,
              elements := [(recipeA, none)],
              stuckError := some (Err.other "invalid character looking for beginning of value"),
              closingDelimiterError := none } =
      { sent := { Recipe := recipeA, Error := none } ::
          List.replicate 4
            (errorEntry (Err.other "invalid character looking for beginning of value")
              "failed to decode recipe"),
        ended := false } := by
  decide

theorem flatMap_sentFor_decoded (elements : List (Recipe × Option Err))
    (h : ∀ element ∈ elements, element.2 = none) :
    elements.flatMap sentFor =
      ((elements.map Prod.fst).filter sanitizeRecipe).map
        fun recipe => { Recipe := recipe, Error := none } := by
  induction elements with
  | nil => rfl
  | cons element rest ih =>
    have h1 := h element (List.mem_cons_self _ _)
    have h2 := ih (fun e he => h e (List.mem_cons_of_mem _ he))
    obtain ⟨recipe, decodeError⟩ := element
    simp only at h1
    subst h1
    rw [List.flatMap_cons, h2]
    by_cases hs : sanitizeRecipe recipe = true
    · simp [sentFor, hs]
    · simp [sentFor, hs]

/-- On a well-formed input array `Parse` returns, having sent the records that pass
`sanitizeRecipe`, in the order of the elements, and nothing else. -/
theorem Parse_wellFormed (source : Source) (h : WellFormed source) (turns : Nat)
    (ht : source.elements.length ≤ turns) :
    Parse turns source =
      { sent := ((source.elements.map Prod.fst).filter sanitizeRecipe).map
          fun recipe => { Recipe := recipe, Error := none },
        ended := true } := by
  obtain ⟨h1, h2, h3, h4, h5⟩ := h
  rw [Parse_opened source h1 h2 h3 h4 turns ht, flatMap_sentFor_decoded _ h5]

theorem wellFormed_arraySource (records : List Recipe) : WellFormed (arraySource records) := by
  refine ⟨rfl, rfl, rfl, rfl, ?_⟩
  intro element he
  simp only [arraySource, List.mem_map] at he
  obtain ⟨r, _, rfl⟩ := he
  rfl

theorem length_sentFor (element : Recipe × Option Err) :
    (sentFor element).length =
      (if element.2 = none then 0 else 1) + (if sanitizeRecipe element.1 then 1 else 0) := by
  obtain ⟨recipe, decodeError⟩ := element
  cases decodeError with
  | none => by_cases hs : sanitizeRecipe recipe = true <;> simp [sentFor, hs]
  | some err => by_cases hs : sanitizeRecipe recipe = true <;> simp [sentFor, hs]

end parser

namespace stats

theorem records_map_ok (recipes : List parser.Recipe) :
    records (recipes.map fun recipe => { Recipe := recipe, Error := none }) = recipes := by
  induction recipes with
  | nil => rfl
  | cons r rest ih =>
    rw [List.map_cons, records_cons_ok _ _ rfl, ih]

end stats

section
open parser stats

/-- C18: parsing preserves valid records and their order.  On a well-formed input array
`Parse` returns once its loop has taken a turn for each element, and the entries that it has
sent are the decoded elements that pass `sanitizeRecipe`, unchanged and in input order, each
as a record entry; an element that fails validation sends no entry and does not stop the
later ones.  The array of the valid record yields that record, the array of the two valid
records yields both in order, and the array of the record with delivery `InvalidTimeFormat`
yields nothing. -/
theorem parser.Parse_preserves_records :
    (∀ source : Source, WellFormed source →
      ∀ turns : Nat, source.elements.length ≤ turns →
      Parse turns source =
        { sent := ((source.elements.map Prod.fst).filter sanitizeRecipe).map
            (fun recipe => { Recipe := recipe, Error := none }),
          ended := true } ∧
      records (Parse turns source).sent =
        (source.elements.map Prod.fst).filter sanitizeRecipe) ∧
    Parse 1 (arraySource [recipeA]) =
      { sent := [{ Recipe := recipeA, Error := none }], ended := true } ∧
    Parse 2 (arraySource [recipeA, recipeB]) =
      { sent := [{ Recipe := recipeA, Error := none }, { Recipe := recipeB, Error := none }],
        ended := true } ∧
    Parse 1 (arraySource [recipeInvalid]) = { sent := [], ended := true } ∧
    Parse 2 (arraySource [recipeInvalid, recipeB]) =
      { sent := [{ Recipe := recipeB, Error := none }], ended := true } := by
  refine ⟨fun source h turns ht => ?_, by decide, by decide, by decide, by decide⟩
  have := Parse_wellFormed source h turns ht
  refine ⟨this, ?_⟩
  rw [this, records_map_ok]

/-- C18 on the array of the invalid record followed by a valid one. -/
theorem parser.Parse_preserves_records_witness :
    WellFormed (arraySource [recipeInvalid, recipeB]) ∧
    (arraySource [recipeInvalid, recipeB]).elements.length ≤ 2 ∧
    records (Parse 2 (arraySource [recipeInvalid, recipeB])).sent =
      ((arraySource [recipeInvalid, recipeB]).elements.map Prod.fst).filter sanitizeRecipe :=
  ⟨wellFormed_arraySource _, by decide,
    (parser.Parse_preserves_records.1 (arraySource [recipeInvalid, recipeB])
      (wellFormed_arraySource _) 2 (by decide)).2⟩

/-- C17 as stated fails: on the array of the single record with delivery `InvalidTimeFormat`,
which decodes, `Parse` returns without having sent an entry for the one element: after no
number of turns has it returned with as many entries sent as the array has elements. -/
theorem parser.Parse_one_per_element_counterexample :
    ¬ ∃ turns : Nat, (Parse turns (arraySource [recipeInvalid])).ended = true ∧
        (Parse turns (arraySource [recipeInvalid])).sent.length
          = (arraySource [recipeInvalid]).elements.length := by
  rintro ⟨turns, h1, h2⟩
  cases turns with
  | zero => revert h1; decide
  | succ turns =>
    have h := Parse_wellFormed (arraySource [recipeInvalid]) (wellFormed_arraySource _)
      (turns + 1) (by simp [arraySource])
    rw [h] at h2
    revert h2
    decide

/-- C17, amended: on every input array whose source opens, whose delimiters are read and on
which the decoder is never stuck, each element failing to decode leaving a record that does
not pass `sanitizeRecipe`, `Parse` returns once its loop has taken a turn for each element,
and it has sent, in the order of the elements, exactly one entry for each element that fails
to decode, the error entry, and for each element that decodes and passes `sanitizeRecipe`,
the record; it has sent no entry for an element that decodes and fails validation.  The
number of entries is the number of elements less those that decode and fail validation. -/
theorem parser.Parse_one_per_element (source : Source)
    (h1 : source.openError = none) (h2 : source.openingDelimiterError = none)
    (h3 : source.closingDelimiterError = none) (h4 : source.stuckError = none)
    (h5 : ∀ element ∈ source.elements, element.2 ≠ none → sanitizeRecipe element.1 = false)
    (turns : Nat) (h6 : source.elements.length ≤ turns) :
    Parse turns source =
      { sent := source.elements.filterMap (fun element =>
          match element.2 with
          | some err => some (errorEntry err "failed to decode recipe")
          | none =>
            if sanitizeRecipe element.1 then some { Recipe := element.1, Error := none }
            else none),
        ended := true } ∧
    (Parse turns source).sent.length + (source.elements.filter fun element =>
        decide (element.2 = none) && !sanitizeRecipe element.1).length
      = source.elements.length := by
  rw [Parse_opened source h1 h2 h3 h4 turns h6]
  simp only [Run.mk.injEq, and_true]
  clear h6
  generalize source.elements = elements at h5
  induction elements with
  | nil => exact ⟨rfl, rfl⟩
  | cons element rest ih =>
    have hr := ih (fun e he => h5 e (List.mem_cons_of_mem _ he))
    have he := h5 element (List.mem_cons_self _ _)
    obtain ⟨recipe, decodeError⟩ := element
    rw [List.flatMap_cons, List.length_append, hr.1]
    cases decodeError with
    | none =>
      by_cases hs : sanitizeRecipe recipe = true
      · refine ⟨by simp [sentFor, hs, List.filterMap_cons], ?_⟩
        have := hr.2
        rw [hr.1] at this
        simp [sentFor, hs, List.filter_cons]
        omega
      · refine ⟨by simp [sentFor, hs, List.filterMap_cons], ?_⟩
        have := hr.2
        rw [hr.1] at this
        simp [sentFor, hs, List.filter_cons]
        omega
    | some err =>
      have hs : sanitizeRecipe recipe = false := he (by simp)
      refine ⟨by simp [sentFor, hs, List.filterMap_cons], ?_⟩
      have := hr.2
      rw [hr.1] at this
      simp [sentFor, hs, List.filter_cons]
      omega

/-- C17, amended, on an array of three elements: a valid record, a number, which fails to
decode with a type mismatch and leaves the zero record, and the record with delivery
`InvalidTimeFormat`. -/
theorem parser.Parse_one_per_element_witness :
    Parse 3 { openError := none, openingDelimiterError := none,
              elements :=
                [(recipeA, none),
                 ({ Recipe := [], Postcode := [], Delivery := [] },
                   some (Err.other "json: cannot unmarshal number into Go value")),
                 (recipeInvalid, none)],
              stuckError := none, closingDelimiterError := none } =
      { sent :=
          [{ Recipe := recipeA, Error := none },
           errorEntry (Err.other "json: cannot unmarshal number into Go value")
             "failed to decode recipe"],
        ended := true } :=
  (parser.Parse_one_per_element
    { openError := none, openingDelimiterError := none,
      elements :=
        [(recipeA, none),
         ({ Recipe := [], Postcode := [], Delivery := [] },
           some (Err.other "json: cannot unmarshal number into Go value")),
         (recipeInvalid, none)],
      stuckError := none, closingDelimiterError := none } rfl rfl rfl rfl (by decide) 3
    (by decide)).1.trans (by decide)

/-- C19 as stated fails: when the source cannot be opened `Parse` sends the single error
entry, and `Generate` returns a report on that stream, not an error. -/
theorem stats.Generate_open_failure_counterexample :
    ¬ ∃ err, Generate id config.defaultConfig
        (Parse 0 { openError := some (Err.other "open /app/files/fixtures.json: no such file"),
                   openingDelimiterError := none, elements := [], stuckError := none,
                   closingDelimiterError := none }).sent = .error err := by
  rintro ⟨err, h⟩
  revert h
  have : Generate id config.defaultConfig
        (Parse 0 { openError := some (Err.other "open /app/files/fixtures.json: no such file"),
                   openingDelimiterError := none, elements := [], stuckError := none,
                   closingDelimiterError := none }).sent =
      .ok { UniqueRecipeCount := 0, CountPerRecipe := [],
            BusiestPostcode := { Postcode := [], DeliveryCount := 0 },
            CountPerPostcodeAndTime :=
              { Postcode := "10120".toList, From := "10AM".toList, To := "3PM".toList,
                DeliveryCount := 0 },
            MatchByName := [] } := by decide
  rw [this]
  intro h
  cases h

/-- C19, amended: when the source cannot be opened, `Parse` returns at once and the stream
consists of the single source-open error entry, which `Generate` skips: it returns, without
error, the report of the empty stream, all counts zero and all lists empty. -/
theorem stats.Generate_open_failure (caseTable : Char → Char) (cfg : config.Config)
    (source : Source) (err : Err) (turns : Nat) (h : source.openError = some err) :
    Parse turns source = { sent := [errorEntry err "failed to open file"], ended := true } ∧
    Generate caseTable cfg (Parse turns source).sent =
      .ok { UniqueRecipeCount := 0, CountPerRecipe := [],
            BusiestPostcode := { Postcode := [], DeliveryCount := 0 },
            CountPerPostcodeAndTime :=
              { Postcode := cfg.Postcode, From := cfg.FromTime, To := cfg.ToTime,
                DeliveryCount := 0 },
            MatchByName := [] } := by
  have hp : Parse turns source =
      { sent := [errorEntry err "failed to open file"], ended := true } := by
    unfold Parse
    rw [h]
  refine ⟨hp, ?_⟩
  rw [hp]
  rfl

/-- C19, amended, on a source that cannot be opened. -/
theorem stats.Generate_open_failure_witness :
    Generate id config.defaultConfig
        (Parse 0 { openError := some (Err.other "open /app/files/fixtures.json: no such file"),
                   openingDelimiterError := none, elements := [], stuckError := none,
                   closingDelimiterError := none }).sent =
      .ok { UniqueRecipeCount := 0, CountPerRecipe := [],
            BusiestPostcode := { Postcode := [], DeliveryCount := 0 },
            CountPerPostcodeAndTime :=
              { Postcode := "10120".toList, From := "10AM".toList, To := "3PM".toList,
                DeliveryCount := 0 },
            MatchByName := [] } :=
  (stats.Generate_open_failure id config.defaultConfig
    { openError := some (Err.other "open /app/files/fixtures.json: no such file"),
      openingDelimiterError := none, elements := [], stuckError := none,
      closingDelimiterError := none }
    (Err.other "open /app/files/fixtures.json: no such file") 0 rfl).2

end


/-! ### The hours that `parseHour` accepts -/

namespace strconv

theorem digitsValue_eq (s : Str) : ∀ n : Nat, (∀ c ∈ s, 48 ≤ c.toNat ∧ c.toNat ≤ 57) →
    digitsValue s n = some (s.foldl (fun n c => n * 10 + (c.toNat - 48)) n) := by
  induction s with
  | nil => intro n _; rfl
  | cons c cs ih =>
    intro n h
    unfold digitsValue
    simp only [h c (List.mem_cons_self _ _), and_self, if_true, List.foldl_cons]
    exact ih _ (fun d hd => h d (List.mem_cons_of_mem _ hd))

theorem digitsValue_some_iff (s : Str) (v : Nat) :
    digitsValue s 0 = some v ↔ (∀ c ∈ s, 48 ≤ c.toNat ∧ c.toNat ≤ 57) ∧ decimalValue s = v := by
  constructor
  · intro h
    have hd := digitsValue_digits s 0 v h
    rw [digitsValue_eq s 0 hd] at h
    exact ⟨hd, by simpa [decimalValue] using h⟩
  · rintro ⟨hd, rfl⟩
    exact digitsValue_eq s 0 hd

/-- `strconv.Atoi` returns a value from 1 to 12 exactly on a decimal numeral of that value,
possibly preceded by a plus sign. -/
theorem Atoi_hour_iff (s : Str) (v : Int) :
    (Atoi s = .ok v ∧ 1 ≤ v ∧ v ≤ 12) ↔
      ∃ digits : Str, (s = digits ∨ s = '+' :: digits) ∧ IsDecimalNumeral digits ∧
        (decimalValue digits : Int) = v ∧ 1 ≤ decimalValue digits ∧
        decimalValue digits ≤ 12 := by
  constructor
  · rintro ⟨h, h1, h12⟩
    unfold Atoi at h
    simp only at h
    generalize hdg :
      (if s.head? = some '-' ∨ s.head? = some '+' then s.tail else s) = digits at h
    by_cases hne : digits = []
    · simp [hne] at h
    · simp only [hne, if_false] at h
      cases hn : digitsValue digits 0 with
      | none => rw [hn] at h; simp at h
      | some n =>
        rw [hn] at h
        simp only at h
        obtain ⟨hd, hv⟩ := (digitsValue_some_iff _ n).1 hn
        have hneg : ¬ s.head? = some '-' := by
          intro hm
          simp only [hm, if_true] at h
          split at h
          · simp at h
          · simp only [Except.ok.injEq] at h
            omega
        simp only [hneg, if_false] at h
        split at h
        · simp at h
        · simp only [Except.ok.injEq] at h
          subst h
          simp only [hneg, false_or] at hdg
          refine ⟨digits, ?_, ⟨hne, hd⟩, by rw [hv], by omega, by omega⟩
          by_cases hp : s.head? = some '+'
          · right
            simp only [hp, if_true] at hdg
            cases s with
            | nil => simp at hp
            | cons c t =>
              simp only [List.head?_cons, Option.some.injEq] at hp
              simp only [List.tail_cons] at hdg
              rw [hp, hdg]
          · left
            simp only [hp, if_false] at hdg
            exact hdg
  · rintro ⟨digits, hs, ⟨hne, hd⟩, hv, h1, h12⟩
    have hdv := (digitsValue_some_iff digits (decimalValue digits)).2 ⟨hd, rfl⟩
    have hhead : ∀ c, digits.head? = some c → c ≠ '-' ∧ c ≠ '+' := by
      intro c hc
      have hm : c ∈ digits := List.mem_of_mem_head? hc
      have := hd c hm
      constructor
      · rintro rfl
        simp at this
      · rintro rfl
        simp at this
    subst hv
    refine ⟨?_, by omega, by omega⟩
    have hneg : ¬ s.head? = some '-' := by
      rcases hs with rfl | rfl
      · exact fun h => (hhead _ h).1 rfl
      · simp
    have hdg : (if s.head? = some '-' ∨ s.head? = some '+' then s.tail else s) = digits := by
      rcases hs with rfl | rfl
      · have h2' : ¬ s.head? = some '+' := fun h => (hhead _ h).2 rfl
        simp only [hneg, h2', or_self, if_false]
      · simp
    have hrange : ¬ ((decimalValue digits : Int) < -(2 : Int) ^ 63 ∨
        (2 : Int) ^ 63 - 1 < (decimalValue digits : Int)) := by omega
    unfold Atoi
    simp only
    rw [hdg]
    simp only [hne, if_false, hdv, hneg, hrange]

end strconv

namespace stats

theorem parseHour_ok (s : Str) (h : Int) (hs : parseHour s = .ok h) :
    ∃ v : Int, strconv.Atoi (trimmed s) = .ok v ∧ 1 ≤ v ∧ v ≤ 12 ∧
      h = (if strings.Contains s "PM".toList
           then (if strings.Contains s "AM".toList && v == 12 then 0 else v) + 12
           else (if strings.Contains s "AM".toList && v == 12 then 0 else v)) := by
  unfold parseHour at hs
  simp only at hs
  split at hs
  · simp at hs
  · next v hv =>
    split at hs
    · simp at hs
    · next hr =>
      simp only [Except.ok.injEq] at hs
      exact ⟨v, hv, by omega, by omega, hs.symm⟩

theorem parseHour_ok_iff (s : Str) :
    (∃ h, parseHour s = .ok h) ↔
      ∃ v : Int, strconv.Atoi (trimmed s) = .ok v ∧ 1 ≤ v ∧ v ≤ 12 := by
  constructor
  · rintro ⟨h, hs⟩
    obtain ⟨v, hv, h1, h12, _⟩ := parseHour_ok s h hs
    exact ⟨v, hv, h1, h12⟩
  · rintro ⟨v, hv, h1, h12⟩
    unfold parseHour
    simp only
    unfold trimmed at hv
    rw [hv]
    have : ¬ (v < 1 ∨ v > 12) := by omega
    simp only [this, if_false]
    exact ⟨_, rfl⟩

theorem parseHour_error_iff_not_ok (s : Str) :
    (∃ err, parseHour s = .error err) ↔ ¬ ∃ h, parseHour s = .ok h := by
  cases parseHour s with
  | error err => simp
  | ok h => simp

theorem parseHour_range (s : Str) (h : Int) (hs : parseHour s = .ok h) : 0 ≤ h ∧ h ≤ 24 := by
  obtain ⟨v, _, h1, h12, rfl⟩ := parseHour_ok s h hs
  by_cases hv : v = 12
  · subst hv
    split_ifs <;> simp_all
  · have : (v == 12) = false := by simpa using hv
    simp only [this, Bool.and_false, Bool.false_eq_true, if_false]
    split_ifs <;> omega

end stats

section
open stats strconv

/-- C15 as stated fails: `parseHour` succeeds on `12PM` and returns 24, which is above 23. -/
theorem stats.parseHour_range_counterexample :
    ¬ (parseHour "12PM".toList = .ok 24 → (0 : Int) ≤ 24 ∧ (24 : Int) ≤ 23) := by
  intro h
  have := (h (by decide)).2
  omega

/-- C15, amended: for every time token on which `parseHour` succeeds, the returned integer
`h` satisfies `0 ≤ h ≤ 24`; the value 24 is returned on `12PM` and the value 0 on `12AM`. -/
theorem stats.parseHour_hour_range :
    (∀ (s : Str) (h : Int), parseHour s = .ok h → 0 ≤ h ∧ h ≤ 24) ∧
    parseHour "12PM".toList = .ok 24 ∧ parseHour "12AM".toList = .ok 0 :=
  ⟨parseHour_range, by decide, by decide⟩

/-- C15, amended, on the token `12PM`. -/
theorem stats.parseHour_hour_range_witness :
    parseHour "12PM".toList = .ok 24 ∧ (0 : Int) ≤ 24 ∧ (24 : Int) ≤ 24 :=
  ⟨by decide, stats.parseHour_hour_range.1 "12PM".toList 24 (by decide)⟩

/-- C16 as stated fails: `+5AM` without its trailing `AM` is `+5`, which is not a decimal
numeral, yet `parseHour` does not return an error on `+5AM`: it returns 5. -/
theorem stats.parseHour_fails_counterexample :
    ¬ ((∃ err, parseHour "+5AM".toList = .error err) ↔
        ¬ (IsDecimalNumeral (trimmed "+5AM".toList) ∧
            1 ≤ decimalValue (trimmed "+5AM".toList) ∧
            decimalValue (trimmed "+5AM".toList) ≤ 12)) := by
  intro h
  have h1 : ¬ (IsDecimalNumeral (trimmed "+5AM".toList) ∧
      1 ≤ decimalValue (trimmed "+5AM".toList) ∧
      decimalValue (trimmed "+5AM".toList) ≤ 12) := by
    rintro ⟨⟨_, hd⟩, _⟩
    have := hd '+' (by decide)
    revert this
    decide
  obtain ⟨err, h2⟩ := h.2 h1
  have h3 : parseHour "+5AM".toList = .ok 5 := by decide
  rw [h3] at h2
  cases h2

/-- C16, amended: `parseHour` returns an error on `s` exactly when `s` with a trailing `AM`
removed and then a trailing `PM` removed is not a decimal numeral, possibly preceded by a plus
sign, whose value lies between 1 and 12 inclusive.  `0AM`, `13PM`, `99AM`, `AM` and the empty
string all fail. -/
theorem stats.parseHour_fails_iff :
    (∀ s : Str, (∃ err, parseHour s = .error err) ↔
      ¬ ∃ digits : Str, (trimmed s = digits ∨ trimmed s = '+' :: digits) ∧
        IsDecimalNumeral digits ∧ 1 ≤ decimalValue digits ∧ decimalValue digits ≤ 12) ∧
    parseHour "0AM".toList = .error (Err.new "hour is not in range 1-12") ∧
    parseHour "13PM".toList = .error (Err.new "hour is not in range 1-12") ∧
    parseHour "99AM".toList = .error (Err.new "hour is not in range 1-12") ∧
    parseHour "AM".toList = .error Err.numError ∧
    parseHour [] = .error Err.numError := by
  refine ⟨fun s => ?_, by decide, by decide, by decide, by decide, by decide⟩
  rw [parseHour_error_iff_not_ok, parseHour_ok_iff]
  apply not_congr
  constructor
  · rintro ⟨v, hv⟩
    obtain ⟨digits, h1, h2, _, h4, h5⟩ := (Atoi_hour_iff (trimmed s) v).1 hv
    exact ⟨digits, h1, h2, h4, h5⟩
  · rintro ⟨digits, h1, h2, h4, h5⟩
    exact ⟨(decimalValue digits : Int),
      (Atoi_hour_iff (trimmed s) _).2 ⟨digits, h1, h2, rfl, h4, h5⟩⟩

end

/-! ### Order independence -/

namespace stats

theorem strLT_antisymm : IsAntisymm Str strLT :=
  ⟨fun _ _ hab hba => absurd hba (@lt_asymm (List Nat) _ _ _ hab)⟩

theorem records_perm (s1 s2 : List parser.Entry) (h : s1.Perm s2) :
    (records s1).Perm (records s2) :=
  (h.filter _).map _

theorem postcodes_perm (s1 s2 : List parser.Entry) (h : s1.Perm s2) :
    (postcodes s1).Perm (postcodes s2) :=
  (records_perm s1 s2 h).map _

theorem recipeNames_perm (s1 s2 : List parser.Entry) (h : s1.Perm s2) :
    (recipeNames s1).Perm (recipeNames s2) :=
  (records_perm s1 s2 h).map _

theorem sortKeys_tally_perm (n1 n2 : List Str) (h : n1.Perm n2) :
    sortKeys (GoMap.tally n1 []) = sortKeys (GoMap.tally n2 []) := by
  have hd1 : (sortKeys (GoMap.tally n1 [])).Nodup :=
    (slices.sort_perm _).nodup_iff.2 (GoMap.nodup_keys_tally n1 [] List.nodup_nil)
  have hd2 : (sortKeys (GoMap.tally n2 [])).Nodup :=
    (slices.sort_perm _).nodup_iff.2 (GoMap.nodup_keys_tally n2 [] List.nodup_nil)
  have hp : (sortKeys (GoMap.tally n1 [])).Perm (sortKeys (GoMap.tally n2 [])) := by
    rw [List.perm_ext_iff_of_nodup hd1 hd2]
    intro k
    rw [mem_sortKeys, mem_sortKeys]
    exact h.mem_iff
  exact @List.eq_of_perm_of_sorted Str strLT strLT_antisymm _ _ hp (sortKeys_strict n1)
    (sortKeys_strict n2)

theorem tally_length (names : List Str) :
    (GoMap.tally names []).length = (sortKeys (GoMap.tally names [])).length := by
  unfold sortKeys
  rw [slices.length_sort, keys_length]

theorem uniqueRecipeCount_tally_perm (n1 n2 : List Str) (h : n1.Perm n2) :
    uniqueRecipeCount (sortKeys (GoMap.tally n1 [])) (GoMap.tally n1 []) =
      uniqueRecipeCount (sortKeys (GoMap.tally n2 [])) (GoMap.tally n2 []) := by
  rw [sortKeys_tally_perm n1 n2 h]
  unfold uniqueRecipeCount
  apply List.map_congr_left
  intro k _
  have hc : n1.count k = n2.count k := h.countP_eq _
  rw [GoMap.get_tally, GoMap.get_tally, hc]

/-- The postcode that the search keeps is the one with the strictly highest count, when there
is one. -/
theorem busiest_unique (ps : List Str) (p : Str)
    (h : ∀ q, q ≠ p → ps.count q < ps.count p) :
    (ps.foldl busiestStep ([], [])).2 = p := by
  by_contra hne
  have h1 := h _ hne
  have h2 := (busiest_invariant ps).2.1 p
  omega

/-- The report of `Generate`, field by field, from the records of the stream. -/
theorem Generate_report (caseTable : Char → Char) (cfg : config.Config)
    (stream : List parser.Entry) (report : ResponseData)
    (h : Generate caseTable cfg stream = .ok report) :
    report =
      { UniqueRecipeCount := (sortKeys (GoMap.tally (recipeNames stream) [])).length,
        CountPerRecipe :=
          uniqueRecipeCount (sortKeys (GoMap.tally (recipeNames stream) []))
            (GoMap.tally (recipeNames stream) []),
        BusiestPostcode :=
          { Postcode := ((postcodes stream).foldl busiestStep ([], [])).2,
            DeliveryCount :=
              (postcodes stream).count ((postcodes stream).foldl busiestStep ([], [])).2 },
        CountPerPostcodeAndTime :=
          { Postcode := cfg.Postcode, From := cfg.FromTime, To := cfg.ToTime,
            DeliveryCount := ((records stream).filter (countsForWindow cfg)).length },
        MatchByName :=
          sortKeys (GoMap.tally ((recipeNames stream).filter fun name =>
            containsWords caseTable name (wordsMap caseTable cfg.Words)) []) } := by
  obtain ⟨h1, h2⟩ := Generate_recipeCounts _ _ _ _ h
  obtain ⟨h3, h4⟩ := Generate_busiest _ _ _ _ h
  have h5 := Generate_specific _ _ _ _ h
  have h6 := Generate_matchByName _ _ _ _ h
  rw [tally_length] at h1
  obtain ⟨v, -, hr⟩ := Generate_ok _ _ _ _ h
  have h7 : report.CountPerPostcodeAndTime.Postcode = cfg.Postcode := by rw [hr]
  have h8 : report.CountPerPostcodeAndTime.From = cfg.FromTime := by rw [hr]
  have h9 : report.CountPerPostcodeAndTime.To = cfg.ToTime := by rw [hr]
  obtain ⟨a, b, ⟨c1, c2⟩, ⟨d1, d2, d3, d4⟩, e⟩ := report
  simp only at h1 h2 h3 h4 h5 h6 h7 h8 h9
  rw [h1, h2, h3, h4, h5, h6, h7, h8, h9]

theorem Generate_ok_perm (caseTable : Char → Char) (cfg : config.Config)
    (s1 s2 : List parser.Entry) (hperm : s1.Perm s2) (report : ResponseData)
    (h : Generate caseTable cfg s1 = .ok report) :
    ∃ report2, Generate caseTable cfg s2 = .ok report2 := by
  rcases Generate_ok_or_error caseTable cfg s2 with hr | he
  · exact hr
  · exfalso
    obtain ⟨entry, hm, h1⟩ := (Generate_error_iff caseTable cfg s2).1 he
    obtain ⟨err, he1⟩ := (Generate_error_iff caseTable cfg s1).2
      ⟨entry, hperm.mem_iff.2 hm, h1⟩
    rw [h] at he1
    cases he1

end stats

section
open stats

/-- C12: order independence.  If two streams are permutations of each other and a single
postcode has the strictly highest count, then under every configuration on which `Generate`
succeeds on the first stream it succeeds on the second one with the identical report. -/
theorem stats.Generate_order_independent (caseTable : Char → Char) (cfg : config.Config)
    (s1 s2 : List parser.Entry) (report : ResponseData) (hperm : s1.Perm s2)
    (hmax : ∃ p, ∀ q, q ≠ p → (postcodes s1).count q < (postcodes s1).count p)
    (h : Generate caseTable cfg s1 = .ok report) :
    Generate caseTable cfg s2 = .ok report := by
  obtain ⟨report2, h2⟩ := Generate_ok_perm caseTable cfg s1 s2 hperm report h
  rw [h2, Generate_report _ _ _ _ h, Generate_report _ _ _ _ h2]
  obtain ⟨p, hp⟩ := hmax
  have hpc := postcodes_perm s1 s2 hperm
  have hnm := recipeNames_perm s1 s2 hperm
  have hb1 := busiest_unique (postcodes s1) p hp
  have hb2 : ((postcodes s2).foldl busiestStep ([], [])).2 = p := by
    apply busiest_unique
    intro q hq
    have hcq : (postcodes s1).count q = (postcodes s2).count q := hpc.countP_eq _
    have hcp : (postcodes s1).count p = (postcodes s2).count p := hpc.countP_eq _
    rw [← hcq, ← hcp]
    exact hp q hq
  have hcp : (postcodes s1).count p = (postcodes s2).count p := hpc.countP_eq _
  rw [hb1, hb2, hcp, uniqueRecipeCount_tally_perm _ _ hnm, sortKeys_tally_perm _ _ hnm,
    ((records_perm s1 s2 hperm).filter (countsForWindow cfg)).length_eq,
    sortKeys_tally_perm _ _ (hnm.filter _)]

/-- C12 on the sample stream and the same entries in reverse order; the postcode `10120` has
two records and every other postcode fewer. -/
theorem stats.Generate_order_independent_witness :
    sampleStream.Perm sampleStream.reverse ∧
    (∃ p, ∀ q, q ≠ p → (postcodes sampleStream).count q < (postcodes sampleStream).count p) ∧
    Generate id config.defaultConfig sampleStream = .ok sampleReport ∧
    Generate id config.defaultConfig sampleStream.reverse = .ok sampleReport := by
  have hperm : sampleStream.Perm sampleStream.reverse := (List.reverse_perm _).symm
  have hmax : ∃ p, ∀ q, q ≠ p →
      (postcodes sampleStream).count q < (postcodes sampleStream).count p := by
    refine ⟨"10120".toList, fun q hq => ?_⟩
    have e : postcodes sampleStream = ["10120".toList, "10224".toList, "10120".toList] := by
      decide
    rw [e]
    have hq' : ("10120".toList == q) = false := by
      simpa using fun h : "10120".toList = q => hq h.symm
    have h2 : ("10120".toList == "10120".toList) = true := by decide
    have h3 : ("10224".toList == "10120".toList) = false := by decide
    simp only [List.count_cons, List.count_nil, hq', h2, h3, if_true, Bool.false_eq_true,
      if_false]
    split_ifs <;> omega
  exact ⟨hperm, hmax, sample_ok,
    stats.Generate_order_independent id config.defaultConfig sampleStream
      sampleStream.reverse sampleReport hperm hmax sample_ok⟩

end

/-! ### The pairs of `uniqueRecipeCount` -/

namespace GoMap

/-- A key that the map does not hold reads as the zero value. -/
theorem get_absent {V : Type} (zero : V) (m : GoMap V) (k : Str) (h : k ∉ keys m) :
    get zero m k = zero := by
  have hl : m.lookup k = none := by
    rw [List.lookup_eq_none_iff]
    intro p hp
    have hne : k ≠ p.1 := fun hk => h (List.mem_map.2 ⟨p, hp, hk.symm⟩)
    simpa using hne
  unfold get
  rw [hl]

end GoMap

section
open stats

/-- C21: `uniqueRecipeCount` pairs each key with its count, in key order.  The result is as
long as the key list; its element at each index is the key at that index with the count that
the map holds for it, which is 0 when the map does not hold the key; and every recipe name of
the result is one of the listed keys.  On the keys `RecipeA`, `RecipeB`, `RecipeC` and the map
of `RecipeC` to 8 and `RecipeB` to 5 the result is `(RecipeA, 0)`, `(RecipeB, 5)`,
`(RecipeC, 8)`; on the empty key list it is empty. -/
theorem stats.uniqueRecipeCount_pairs :
    (∀ (ks : List Str) (m : GoMap Nat),
      (uniqueRecipeCount ks m).length = ks.length ∧
      (∀ i : Nat, (uniqueRecipeCount ks m)[i]? =
        ks[i]?.map fun k => { Recipe := k, Count := GoMap.get 0 m k }) ∧
      (∀ (i : Nat) (k : Str), ks[i]? = some k → k ∉ GoMap.keys m →
        (uniqueRecipeCount ks m)[i]? = some { Recipe := k, Count := 0 }) ∧
      (∀ rc ∈ uniqueRecipeCount ks m, rc.Recipe ∈ ks)) ∧
    uniqueRecipeCount ["RecipeA".toList, "RecipeB".toList, "RecipeC".toList]
        [("RecipeC".toList, 8), ("RecipeB".toList, 5)] =
      [{ Recipe := "RecipeA".toList, Count := 0 }, { Recipe := "RecipeB".toList, Count := 5 },
       { Recipe := "RecipeC".toList, Count := 8 }] ∧
    (∀ m : GoMap Nat, uniqueRecipeCount [] m = []) := by
  refine ⟨fun ks m => ⟨?_, fun i => ?_, fun i k hk hm => ?_, fun rc hrc => ?_⟩, by decide,
    fun m => rfl⟩
  · simp [uniqueRecipeCount]
  · simp [uniqueRecipeCount]
  · simp [uniqueRecipeCount, hk, GoMap.get_absent 0 m k hm]
  · obtain ⟨k, hk, rfl⟩ := List.mem_map.1 hrc
    exact hk

/-- C21 on the three cases of the test of `uniqueRecipeCount`: the element at index 0 of the
result for the keys `RecipeA`, `RecipeB`, `RecipeC` is `RecipeA` with count 0 when the map
holds only `RecipeC` and `RecipeB`. -/
theorem stats.uniqueRecipeCount_pairs_witness :
    ["RecipeA".toList, "RecipeB".toList, "RecipeC".toList][0]? = some "RecipeA".toList ∧
    "RecipeA".toList ∉ GoMap.keys [("RecipeC".toList, 8), ("RecipeB".toList, 5)] ∧
    (uniqueRecipeCount ["RecipeA".toList, "RecipeB".toList, "RecipeC".toList]
        [("RecipeC".toList, 8), ("RecipeB".toList, 5)])[0]? =
      some { Recipe := "RecipeA".toList, Count := 0 } :=
  ⟨rfl, by decide,
    (stats.uniqueRecipeCount_pairs.1 ["RecipeA".toList, "RecipeB".toList, "RecipeC".toList]
      [("RecipeC".toList, 8), ("RecipeB".toList, 5)]).2.2.1 0 "RecipeA".toList rfl
      (by decide)⟩

end

/-! ### Consistency of the counts of the report -/

namespace stats

/-- The counts of the names of a list, summed over the sorted keys of its tally, give the
length of the list. -/
theorem sum_counts_tally (names : List Str) :
    ((uniqueRecipeCount (sortKeys (GoMap.tally names [])) (GoMap.tally names [])).map
      fun rc => rc.Count).sum = names.length := by
  have hnd : (sortKeys (GoMap.tally names [])).Nodup :=
    (slices.sort_perm _).nodup_iff.2 (GoMap.nodup_keys_tally _ [] List.nodup_nil)
  have hp : (sortKeys (GoMap.tally names [])).Perm names.dedup := by
    rw [List.perm_ext_iff_of_nodup hnd (List.nodup_dedup _)]
    intro k
    rw [mem_sortKeys, List.mem_dedup]
  have e : (uniqueRecipeCount (sortKeys (GoMap.tally names [])) (GoMap.tally names [])).map
      (fun rc => rc.Count) = (sortKeys (GoMap.tally names [])).map fun k => names.count k := by
    unfold uniqueRecipeCount
    rw [List.map_map]
    apply List.map_congr_left
    intro k _
    simp only [Function.comp_apply]
    rw [GoMap.get_tally, GoMap.get_nil]
    omega
  have hc : ∀ k : Str, names.count k = @List.count Str instBEqOfDecidableEq k names := by
    intro k
    unfold List.count
    apply List.countP_congr
    intro x _
    simp
  rw [e, (hp.map _).sum_eq]
  simp only [hc]
  exact List.sum_map_count_dedup_eq_length names

/-- The records that count for the configured window are records of the configured postcode. -/
theorem length_window_le (cfg : config.Config) (stream : List parser.Entry) :
    ((records stream).filter (countsForWindow cfg)).length ≤
      (postcodes stream).count cfg.Postcode := by
  unfold postcodes
  generalize records stream = rs
  induction rs with
  | nil => simp
  | cons r rs ih =>
    rw [List.filter_cons, List.map_cons, List.count_cons]
    by_cases h : r.Postcode = cfg.Postcode
    · have hb : (r.Postcode == cfg.Postcode) = true := by simpa using h
      rw [hb]
      split <;> simp <;> omega
    · have hc : countsForWindow cfg r = false := by simp [countsForWindow, h]
      rw [hc]
      simp only [Bool.false_eq_true, if_false]
      omega

end stats

section
open stats

/-- C23: the counts of the report are mutually consistent.  On every stream on which
`Generate` succeeds, the delivery count for the configured postcode and window is at most the
delivery count of the busiest postcode, and the counts of `count_per_recipe` sum to the number
of entries without error of the stream. -/
theorem stats.Generate_counts_consistent (caseTable : Char → Char) (cfg : config.Config)
    (stream : List parser.Entry) (report : ResponseData)
    (h : Generate caseTable cfg stream = .ok report) :
    report.CountPerPostcodeAndTime.DeliveryCount ≤ report.BusiestPostcode.DeliveryCount ∧
    (report.CountPerRecipe.map fun rc => rc.Count).sum =
      (stream.filter fun entry => entry.Error = none).length := by
  have hr := Generate_report caseTable cfg stream report h
  rw [hr]
  refine ⟨?_, ?_⟩
  · exact le_trans (length_window_le cfg stream)
      ((busiest_invariant (postcodes stream)).2.1 cfg.Postcode)
  · simp only
    rw [sum_counts_tally]
    simp [recipeNames, records]

/-- C23 on the sample stream, of three records and one error entry: the window count 2 is at
most the busiest count 2, and the recipe counts 2 and 1 sum to 3. -/
theorem stats.Generate_counts_consistent_witness :
    Generate id config.defaultConfig sampleStream = .ok sampleReport ∧
    sampleReport.CountPerPostcodeAndTime.DeliveryCount = 2 ∧
    sampleReport.BusiestPostcode.DeliveryCount = 2 ∧
    (sampleReport.CountPerRecipe.map fun rc => rc.Count).sum = 3 ∧
    (sampleStream.filter fun entry => entry.Error = none).length = 3 ∧
    (sampleReport.CountPerPostcodeAndTime.DeliveryCount ≤
        sampleReport.BusiestPostcode.DeliveryCount ∧
      (sampleReport.CountPerRecipe.map fun rc => rc.Count).sum =
        (sampleStream.filter fun entry => entry.Error = none).length) :=
  ⟨sample_ok, rfl, rfl, rfl, by decide,
    stats.Generate_counts_consistent id config.defaultConfig sampleStream sampleReport
      sample_ok⟩

end

/-! ### Validated records that cannot be read -/

namespace stats

theorem parseHour_AM (n : Nat) (h1 : 1 ≤ n) (h2 : n ≤ 12) :
    parseHour (Nat.toDigits 10 n ++ "AM".toList) = .ok (if n = 12 then 0 else (n : Int)) := by
  interval_cases n <;> decide

theorem parseHour_PM (n : Nat) (h1 : 1 ≤ n) (h2 : n ≤ 12) :
    parseHour (Nat.toDigits 10 n ++ "PM".toList) = .ok ((n : Int) + 12) := by
  interval_cases n <;> decide

/-- On the delivery format that the comment of `isDeliveryTimeInRange` names, a day, one
space, an hour numeral with `AM`, ` - `, an hour numeral with `PM`, the function returns
without error whenever the configured hours are parsed. -/
theorem isDeliveryTimeInRange_canonical (day h1 h2 fromHour toHour : Str) (f t : Int)
    (hday : ' ' ∉ day) (hh1 : parser.IsHour h1) (hh2 : parser.IsHour h2)
    (hf : parseHour fromHour = .ok f) (ht : parseHour toHour = .ok t) :
    ∃ inRange, isDeliveryTimeInRange
      (day ++ " ".toList ++ (h1 ++ "AM".toList) ++ " - ".toList ++ (h2 ++ "PM".toList))
      fromHour toHour = .ok inRange := by
  obtain ⟨n1, a1, a2, rfl⟩ := hh1
  obtain ⟨n2, b1, b2, rfl⟩ := hh2
  exact ⟨_, isDeliveryTimeInRange_eq day _ _ fromHour toHour _ _ f t hday
    (parseHour_AM n1 a1 a2) (parseHour_PM n2 b1 b2) hf ht⟩

end stats

section
open stats

/-- C22 fails on the code: the record of postcode `10120`, delivery `Monday 9AM-5PM` and recipe
`RecipeA` is accepted by `sanitizeRecipe`, whose pattern lets the whitespace around the dash be
empty, and the hours `10AM` and `3PM` are accepted by `parseHour`; yet `isDeliveryTimeInRange`
returns an error on its delivery string, which holds no ` - `.  `Parse` returns after one turn
of its loop, having sent the record as its only entry, and `Generate` under the default
configuration fails on that stream. -/
theorem stats.validated_record_unreadable :
    parser.sanitizeRecipe
      { Recipe := "RecipeA".toList, Postcode := "10120".toList,
        Delivery := "Monday 9AM-5PM".toList } = true ∧
    parseHour "10AM".toList = .ok 10 ∧
    parseHour "3PM".toList = .ok 15 ∧
    isDeliveryTimeInRange "Monday 9AM-5PM".toList "10AM".toList "3PM".toList =
      .error (Err.new "failed to split delivery time") ∧
    parser.Parse 1 (parser.arraySource
        [{ Recipe := "RecipeA".toList, Postcode := "10120".toList,
           Delivery := "Monday 9AM-5PM".toList }]) =
      { sent := [{ Recipe := { Recipe := "RecipeA".toList, Postcode := "10120".toList,
                               Delivery := "Monday 9AM-5PM".toList },
                   Error := none }],
        ended := true } ∧
    Generate id config.defaultConfig
      (parser.Parse 1 (parser.arraySource
        [{ Recipe := "RecipeA".toList, Postcode := "10120".toList,
           Delivery := "Monday 9AM-5PM".toList }])).sent =
      .error (Err.wrap (Err.new "failed to split delivery time")
        "failed to check if delivery time is in range") := by
  refine ⟨by decide, by decide, by decide, by decide, by decide, by decide⟩

end
